import Mathlib

/-!
# Verification of the RustPython list core (`vm/src/obj/objlist.rs`)

This file gives a shallow embedding of the sequence-mutation core of the
`PyList` implementation: scalar index resolution (`get_pos`), slice bound
resolution (`get_slice_pos`, `get_slice_range`), slice assignment and
deletion including the stepped (extended) variants, `pop`, the
quicksort-based `sort` with its detach/reattach mutation guard, and the
two iteration cursors.  Machine integers (`i32`, `usize`) are modelled as
`Int`/`Nat` with explicit range checks where the source performs them;
`BigInt` slice bounds are modelled as `Int`.  Fallible operations return
an explicit error value together with the post-call contents of the
container, mirroring the fact that in the source every error return
happens before any mutation of `self.elements` unless stated otherwise.
-/

namespace PyList

/-- Error taxonomy of the runtime, as produced by the list core
(`vm.new_index_error`, `vm.new_value_error`, `vm.new_type_error`). -/
inductive PyErr where
  | indexError (msg : String)
  | valueError (msg : String)
  | typeError (msg : String)
  deriving DecidableEq, Repr

/-- The `i32` range check: `BigInt::to_i32` succeeds exactly on this range. -/
def fitsI32 (x : Int) : Bool := decide (-(2 ^ 31) ≤ x) && decide (x < 2 ^ 31)

/-- Embeds `PyList::get_pos`: convert a (potentially negative) position into a real
index.  The source takes `p : i32`; we model the value as `Int`.
```
if p < 0 { if -p as usize > len { None } else { Some(len - (-p as usize)) } }
else if p as usize >= len { None } else { Some(p as usize) }
``` -/
def get_pos (len : Nat) (p : Int) : Option Nat :=
  if p < 0 then
    if len < (-p).toNat then none else some (len - (-p).toNat)
  else
    if len ≤ p.toNat then none else some p.toNat

/-- Embeds `PyList::get_slice_pos`: resolve one slice bound, clamping out-of-range
bounds to `0` (negative side) or `len` (positive side).  The source first
tries `slice_pos.to_i32()` and `get_pos`; on failure it clamps. -/
def get_slice_pos (len : Nat) (x : Int) : Nat :=
  match (if fitsI32 x then get_pos len x else none) with
  | some idx => idx
  | none => if x < 0 then 0 else len

/-- Embeds `PyList::get_slice_range`: resolve both (optional) bounds; a missing
start defaults to `0`, a missing stop to `len`. -/
def get_slice_range (len : Nat) (start stop : Option Int) : Nat × Nat :=
  ((start.map (get_slice_pos len)).getD 0, (stop.map (get_slice_pos len)).getD len)

/-- The index normalization `pop` performs:
`if i < 0 { i += elements.len() }`. -/
def popNorm (l : List α) (i : Int) : Int :=
  if i < 0 then i + l.length else i

/-- Embeds `PyList::pop`: the argument defaults to `-1`, a negative index is
normalized by adding the length, then the empty-container and range
checks run in order.  The element value is returned through `Except`; on
the error paths the source has not touched `self.elements`, so the
returned container is the input list unchanged. -/
def pop [Inhabited α] (l : List α) (i : Option Int) : List α × Except PyErr α :=
  if l.isEmpty then (l, .error (.indexError "pop from empty list"))
  else if popNorm l (i.getD (-1)) < 0 ∨ (l.length : Int) ≤ popNorm l (i.getD (-1)) then
    (l, .error (.indexError "pop index out of range"))
  else
    (l.eraseIdx (popNorm l (i.getD (-1))).toNat,
      .ok (l.getD (popNorm l (i.getD (-1))).toNat default))

/-- Rust `Vec::swap(i, j)` modelled on lists: exchanges the elements at
positions `i` and `j`.  The source panics when an index is out of bounds;
all call sites below use in-bounds indices, and the model leaves the list
unchanged in that unreachable case. -/
def listSwap (l : List α) (i j : Nat) : List α :=
  match l[i]?, l[j]? with
  | some a, some b => (l.set i b).set j a
  | _, _ => l

/-- Models `Iterator::collect::<Result<Vec<_>, _>>()` over the replacement
source: produce the whole item vector, or stop at the first failing
element production.  Models `sec.iter(vm)?.collect()`. -/
def collectItems : List (Except PyErr α) → Except PyErr (List α)
  | [] => .ok []
  | x :: xs =>
    match x with
    | .error e => .error e
    | .ok a =>
      match collectItems xs with
      | .error e => .error e
      | .ok ys => .ok (a :: ys)

/-- Models `Vec::splice(start..stop, items)`: replace the range with the items. -/
def listSplice (l : List α) (start stop : Nat) (items : List α) : List α :=
  l.take start ++ items ++ l.drop stop

/-- Embeds `PyList::_set_slice`: contiguous (`step == 1`) slice assignment.  The
iterator is collected *before* any mutation; a collection failure returns
the error with the container untouched. -/
def _set_slice (l : List α) (start stop : Nat) (sec : List (Except PyErr α)) :
    List α × Except PyErr Unit :=
  match collectItems sec with
  | .error e => (l, .error e)
  | .ok items => (listSplice l start stop items, .ok ())

/-- Number of positions selected by `(start..stop).step_by(step)`; this is
the `slicelen` computed by `_set_stepped_slice` and
`_set_stepped_slice_reverse`. -/
def steppedCount (start stop step : Nat) : Nat :=
  if start < stop then (stop - start - 1) / step + 1 else 0

/-- The positions visited by `(start..stop).step_by(step)` in order
(requires `1 ≤ step`, as in every call site; `step_by(0)` panics in
Rust). -/
def steppedIndexes (start stop step : Nat) : List Nat :=
  (List.range (steppedCount start stop step)).map (fun k => start + k * step)

/-- The positions visited by `(start..stop).rev().step_by(step)` in order
(descending from `stop - 1`). -/
def steppedIndexesRev (start stop step : Nat) : List Nat :=
  (List.range (steppedCount start stop step)).map (fun k => stop - 1 - k * step)

/-- Embeds `PyList::_replace_indexes`: `for (i, value) in indexes.zip(items)`
assign `elements[i] = value`. -/
def _replace_indexes (l : List α) : List (Nat × α) → List α
  | [] => l
  | (i, v) :: rest => _replace_indexes (l.set i v) rest

/-- Embeds `PyList::_set_stepped_slice`: forward extended-slice assignment.  The
slice length is `((stop - start - 1) / step) + 1` for a non-degenerate
range; the collected replacement must have exactly that length. -/
def _set_stepped_slice (l : List α) (start stop step : Nat)
    (sec : List (Except PyErr α)) : List α × Except PyErr Unit :=
  let slicelen := if start < stop then (stop - start - 1) / step + 1 else 0
  match collectItems sec with
  | .error e => (l, .error e)
  | .ok items =>
    let n := items.length
    if start < stop then
      if n = slicelen then
        (_replace_indexes l ((steppedIndexes start stop step).zip items), .ok ())
      else
        (l, .error (.valueError ("attempt to assign sequence of size " ++ toString n
          ++ " to extended slice of size " ++ toString slicelen)))
    else if n = 0 then (l, .ok ())
    else
      (l, .error (.valueError ("attempt to assign sequence of size " ++ toString n
        ++ " to extended slice of size 0")))

/-- Embeds `PyList::_set_stepped_slice_reverse`: reverse extended-slice
assignment; the target positions are `(start..stop).rev().step_by(step)`. -/
def _set_stepped_slice_reverse (l : List α) (start stop step : Nat)
    (sec : List (Except PyErr α)) : List α × Except PyErr Unit :=
  let slicelen := if start < stop then (stop - start - 1) / step + 1 else 0
  match collectItems sec with
  | .error e => (l, .error e)
  | .ok items =>
    let n := items.length
    if start < stop then
      if n = slicelen then
        (_replace_indexes l ((steppedIndexesRev start stop step).zip items), .ok ())
      else
        (l, .error (.valueError ("attempt to assign sequence of size " ++ toString n
          ++ " to extended slice of size " ++ toString slicelen)))
    else if n = 0 then (l, .ok ())
    else
      (l, .error (.valueError ("attempt to assign sequence of size " ++ toString n
        ++ " to extended slice of size 0")))

/-- The reverse-step adjustment applied to a raw *start* bound by
`setslice`/`delslice` when `step < 0`:
`if *x == -1 { len + 1 } else { x + 1 }`. -/
def revAdjStart (len : Nat) (x : Int) : Int :=
  if x = -1 then (len : Int) + 1 else x + 1

/-- The reverse-step adjustment applied to a raw *stop* bound by
`setslice`/`delslice` when `step < 0`:
`if *x == -1 { len } else { x + 1 }`. -/
def revAdjStop (len : Nat) (x : Int) : Int :=
  if x = -1 then (len : Int) else x + 1

/-- Embeds `PyList::setslice`: the slice-assignment dispatcher.  `step` defaults
to `1`; `step == 0` is a `ValueError`; a positive step dispatches to the
contiguous or forward stepped assignment; a negative step first applies
the reverse-step bound adjustment and computes the ascending range with
the transformed stop bound first. -/
def setslice (l : List α) (start stop step : Option Int)
    (sec : List (Except PyErr α)) : List α × Except PyErr Unit :=
  let stepv := step.getD 1
  if stepv = 0 then (l, .error (.valueError "slice step cannot be zero"))
  else if 0 < stepv then
    let r := get_slice_range l.length start stop
    if r.1 < r.2 then
      if fitsI32 stepv then
        if stepv = 1 then _set_slice l r.1 r.2 sec
        else _set_stepped_slice l r.1 r.2 stepv.toNat sec
      else _set_stepped_slice l r.1 (r.1 + 1) 1 sec
    else _set_slice l r.1 r.1 sec
  else
    let start2 := start.map (revAdjStart l.length)
    let stop2 := stop.map (revAdjStop l.length)
    let r := get_slice_range l.length stop2 start2
    if fitsI32 (-stepv) then _set_stepped_slice_reverse l r.1 r.2 (-stepv).toNat sec
    else _set_stepped_slice_reverse l (r.2 - 1) r.2 1 sec

/-- Models `Vec::drain(start..stop)`: remove the positions in `[start, stop)`. -/
def drainRange (l : List α) (start stop : Nat) : List α :=
  l.take start ++ l.drop stop

/-- Embeds `PyList::_del_slice`: contiguous slice deletion. -/
def _del_slice (l : List α) (start stop : Nat) : List α :=
  drainRange l start stop

/-- The loop of `_del_stepped_slice`: walk the positions `idxs` (the range
in ascending order) with the peekable iterator `pending` of positions to
delete; a surviving element is swapped `deleted` places toward the front. -/
def delSteppedAux : List Nat → List Nat → Nat → List α → List α × Nat
  | [], _, deleted, elements => (elements, deleted)
  | i :: is, pending, deleted, elements =>
    match pending with
    | j :: js =>
      if j = i then delSteppedAux is js (deleted + 1) elements
      else delSteppedAux is (j :: js) deleted (listSwap elements (i - deleted) i)
    | [] => delSteppedAux is [] deleted (listSwap elements (i - deleted) i)

/-- Embeds `PyList::_del_stepped_slice`: forward stepped deletion; after the
walk, the displaced elements are contiguous at the end of the range and
are drained. -/
def _del_stepped_slice (l : List α) (start stop step : Nat) : List α :=
  let res := delSteppedAux (List.range' start (stop - start))
    (steppedIndexes start stop step) 0 l
  drainRange res.1 (stop - res.2) stop

/-- The loop of `_del_stepped_slice_reverse`: walk the range in descending
order; a surviving element is swapped `deleted` places toward the back. -/
def delSteppedRevAux : List Nat → List Nat → Nat → List α → List α × Nat
  | [], _, deleted, elements => (elements, deleted)
  | i :: is, pending, deleted, elements =>
    match pending with
    | j :: js =>
      if j = i then delSteppedRevAux is js (deleted + 1) elements
      else delSteppedRevAux is (j :: js) deleted (listSwap elements (i + deleted) i)
    | [] => delSteppedRevAux is [] deleted (listSwap elements (i + deleted) i)

/-- Embeds `PyList::_del_stepped_slice_reverse`: reverse stepped deletion; the
displaced elements end up contiguous at the start of the range and are
drained. -/
def _del_stepped_slice_reverse (l : List α) (start stop step : Nat) : List α :=
  let res := delSteppedRevAux (List.range' start (stop - start)).reverse
    (steppedIndexesRev start stop step) 0 l
  drainRange res.1 start (start + res.2)

/-- Embeds `PyList::delslice`: the slice-deletion dispatcher, mirroring
`setslice`'s structure (including the reverse-step bound adjustment). -/
def delslice (l : List α) (start stop step : Option Int) :
    List α × Except PyErr Unit :=
  let stepv := step.getD 1
  if stepv = 0 then (l, .error (.valueError "slice step cannot be zero"))
  else if 0 < stepv then
    let r := get_slice_range l.length start stop
    if r.1 < r.2 then
      if fitsI32 stepv then
        if stepv = 1 then (_del_slice l r.1 r.2, .ok ())
        else (_del_stepped_slice l r.1 r.2 stepv.toNat, .ok ())
      else (_del_slice l r.1 (r.1 + 1), .ok ())
    else (l, .ok ())
  else
    let start2 := start.map (revAdjStart l.length)
    let stop2 := stop.map (revAdjStop l.length)
    let r := get_slice_range l.length stop2 start2
    if r.1 < r.2 then
      if fitsI32 (-stepv) then
        if -stepv = 1 then (_del_slice l r.1 r.2, .ok ())
        else (_del_stepped_slice_reverse l r.1 r.2 (-stepv).toNat, .ok ())
      else (_del_slice l (r.2 - 1) r.2, .ok ())
    else (l, .ok ())

/-- One invocation of a user-supplied key function.  During `sort` the
container's backing store is detached and replaced by an empty
placeholder, so any elements the callback appends (via re-entrant
`list.append`) land on the placeholder; `appended` records them, and
`result` is the key value or the raised error.  Appends performed before
a raised error have still happened, as in the source. -/
structure KeyCall (α : Type u) where
  appended : List α
  result : Except PyErr α

/-- The key extractor actually invoked by `do_sort`: the identity (no
appends, never fails) when no key function is given, else the supplied
callback. -/
def keyCallOf (key : Option (α → KeyCall α)) (x : α) : KeyCall α :=
  match key with
  | none => { appended := [], result := .ok x }
  | some f => f x

/-- The key-table construction loop of `do_sort`, threading the
placeholder contents: for each element in order, invoke the key function
(its appends accumulate on the placeholder) and push the key, aborting on
the first error. -/
def buildKeys (f : α → KeyCall α) : List α → List α → List α × Except PyErr (List α)
  | [], ph => (ph, .ok [])
  | x :: xs, ph =>
    let c := f x
    let ph2 := ph ++ c.appended
    match c.result with
    | .error e => (ph2, .error e)
    | .ok k =>
      match buildKeys f xs ph2 with
      | (ph3, .error e) => (ph3, .error e)
      | (ph3, .ok ks) => (ph3, .ok (k :: ks))

/-- The comparison loop of `partition`: for each `i` in `0..len-1`,
compare `keys[i]` with the pivot key parked at `last = len - 1`; on
`true` swap position `i` with `store_idx` in both arrays in lock-step and
increment `store_idx`.  The comparator (`vm._lt` + `boolval`) is modelled
as a fallible boolean relation with no container side effects. -/
def partitionGo [Inhabited α] (lt : α → α → Except PyErr Bool) (last : Nat) :
    List Nat → Nat → List α → List α → Except PyErr (Nat × List α × List α)
  | [], store, keys, values => .ok (store, keys, values)
  | i :: is, store, keys, values => do
    let b ← lt (keys.getD i default) (keys.getD last default)
    if b then
      partitionGo lt last is (store + 1) (listSwap keys i store) (listSwap values i store)
    else
      partitionGo lt last is store keys values

/-- Embeds `partition`: move the middle element (`pivot = len / 2`) to the end,
run the comparison loop, then swap the pivot into its final slot
`store_idx`.  Keys and values are permuted in lock-step throughout. -/
def partition [Inhabited α] (lt : α → α → Except PyErr Bool)
    (keys values : List α) : Except PyErr (Nat × List α × List α) :=
  let len := values.length
  let pivot := len / 2
  let keys1 := listSwap keys pivot (len - 1)
  let values1 := listSwap values pivot (len - 1)
  match partitionGo lt (len - 1) (List.range (len - 1)) 0 keys1 values1 with
  | .error e => .error e
  | .ok (store, keys2, values2) =>
    .ok (store, listSwap keys2 store (len - 1), listSwap values2 store (len - 1))

/-- Embeds `quicksort`: recursive partition sort on the parallel key/value
arrays.  The source recursion is structural on the slice length; the
embedding uses an explicit fuel argument bounded below by the list
length (`quicksortFuel_ok` shows that much fuel always suffices, so the
fuel-exhausted branch, which returns the arrays unchanged like the
`len < 2` base case, is never taken on the calls the code performs). -/
def quicksortFuel [Inhabited α] (lt : α → α → Except PyErr Bool) :
    Nat → List α → List α → Except PyErr (List α × List α)
  | 0, keys, values => .ok (keys, values)
  | fuel + 1, keys, values =>
    if 2 ≤ values.length then do
      let (p, ks, vs) ← partition lt keys values
      let (ksl, vsl) ← quicksortFuel lt fuel (ks.take p) (vs.take p)
      let (ksr, vsr) ← quicksortFuel lt fuel (ks.drop (p + 1)) (vs.drop (p + 1))
      .ok (ksl ++ ks.getD p default :: ksr, vsl ++ vs.getD p default :: vsr)
    else .ok (keys, values)

/-- Embeds `PyList::sort`: detach the backing store (leaving an empty
placeholder), build the key table, quicksort keys and values in
lock-step, reverse if requested, reattach the sorted elements, and
report a `ValueError` exactly when the placeholder is non-empty at
reattach time.  If `do_sort` itself fails, the error propagates *before*
reattaching, so the container keeps the placeholder contents. -/
def sort [Inhabited α] (l : List α) (key : Option (α → KeyCall α))
    (lt : α → α → Except PyErr Bool) (reverse : Bool) :
    List α × Except PyErr Unit :=
  match buildKeys (keyCallOf key) l [] with
  | (ph, .error e) => (ph, .error e)
  | (ph, .ok keys) =>
    match quicksortFuel lt l.length keys l with
    | .error e => (ph, .error e)
    | .ok (_, vs) =>
      let vs2 := if reverse then vs.reverse else vs
      if ph.isEmpty then (vs2, .ok ())
      else (vs2, .error (.valueError "list modified during sort"))

/-- A concrete comparator on naturals that never fails (a deterministic
stand-in for `vm._lt` on small integers). -/
def natLt : Nat → Nat → Except PyErr Bool :=
  fun a b => .ok (decide (a < b))

/-- A concrete key function that appends `99` to the (detached) container
and then fails when invoked on `5`, and succeeds without appending on
everything else. -/
def c8KeyFun : Nat → KeyCall Nat :=
  fun x => if x = 5 then ⟨[99], .error (.valueError "boom")⟩ else ⟨[], .ok x⟩

/-- Embeds `PyListIterator::next`: read the live container at the current
position; `none` is `StopIteration`. -/
def iterNext (l : List α) (pos : Nat) : Option (α × Nat) :=
  (l[pos]?).map (fun a => (a, pos + 1))

/-- Embeds `PyListIterator::length_hint`: `list.len() - pos` (usize
subtraction), computed against the live container. -/
def iterLengthHint (l : List α) (pos : Nat) : Nat :=
  l.length - pos

/-- Embeds `PyListReverseIterator::next`: decrement first, then read the live
container; exhausted at position `0`. -/
def reviterNext (l : List α) (pos : Nat) : Option (α × Nat) :=
  if 0 < pos then (l[pos - 1]?).map (fun a => (a, pos - 1)) else none

/-- Embeds `PyListReverseIterator::length_hint`: the current position (the live
container is not consulted). -/
def reviterLengthHint (_l : List α) (pos : Nat) : Nat :=
  pos

/-- Number of elements the forward cursor still yields against a fixed
container: iterate `iterNext` (with enough fuel) counting successes. -/
def iterStepsFuel (l : List α) : Nat → Nat → Nat
  | 0, _ => 0
  | fuel + 1, pos =>
    match iterNext l pos with
    | none => 0
    | some (_, p2) => iterStepsFuel l fuel p2 + 1

/-- Number of elements the reverse cursor still yields against a fixed
container. -/
def reviterStepsFuel (l : List α) : Nat → Nat → Nat
  | 0, _ => 0
  | fuel + 1, pos =>
    match reviterNext l pos with
    | none => 0
    | some (_, p2) => reviterStepsFuel l fuel p2 + 1

/-- Modelled from the spec (claim side, for the stepped-deletion
refinement): the container with exactly the selected positions removed
and all other elements in original relative order.  `i` is the position
of the head of the list being traversed. -/
def deleteSel (sel : Nat → Bool) : Nat → List α → List α
  | _, [] => []
  | i, a :: l => if sel i then deleteSel sel (i + 1) l else a :: deleteSel sel (i + 1) l

/-! ## Generic list lemmas -/

theorem set_of_getElem? {l : List α} {i : Nat} {a : α} (h : l[i]? = some a) :
    l.set i a = l := by
  apply List.ext_getElem?
  intro n
  rw [List.getElem?_set]
  split
  · next heq =>
    subst heq
    rw [if_pos (by
      rcases List.getElem?_eq_some.mp h with ⟨hlt, _⟩
      exact hlt)]
    exact h.symm
  · rfl

theorem listSwap_self (l : List α) (i : Nat) : listSwap l i i = l := by
  unfold listSwap
  cases h : l[i]? with
  | none => rfl
  | some a =>
    simp only [List.set_set]
    exact set_of_getElem? h

theorem listSwap_length (l : List α) (i j : Nat) :
    (listSwap l i j).length = l.length := by
  unfold listSwap
  cases l[i]? <;> cases l[j]? <;> simp [List.length_set]

theorem getElem?_append_middle (X W : List α) (u : α) :
    (X ++ u :: W)[X.length]? = some u := by
  rw [List.getElem?_append_right (Nat.le_refl _)]
  simp

theorem set_append_middle (X W : List α) (u b : α) :
    (X ++ u :: W).set X.length b = X ++ b :: W := by
  rw [List.set_append_right _ _ (Nat.le_refl _)]
  simp

theorem listSwap_eq_of_getElem? {l : List α} {i j : Nat} {a b : α}
    (ha : l[i]? = some a) (hb : l[j]? = some b) :
    listSwap l i j = (l.set i b).set j a := by
  unfold listSwap
  rw [ha, hb]

theorem listSwap_append (X Y Z : List α) (u v : α) :
    listSwap (X ++ u :: (Y ++ v :: Z)) X.length (X.length + Y.length + 1)
      = X ++ v :: (Y ++ u :: Z) := by
  have hXY : X ++ u :: (Y ++ v :: Z) = (X ++ u :: Y) ++ v :: Z := by
    simp
  have hlen : (X ++ u :: Y).length = X.length + Y.length + 1 := by
    simp only [List.length_append, List.length_cons]
    omega
  have hu : (X ++ u :: (Y ++ v :: Z))[X.length]? = some u :=
    getElem?_append_middle X (Y ++ v :: Z) u
  have hv : (X ++ u :: (Y ++ v :: Z))[X.length + Y.length + 1]? = some v := by
    rw [hXY, ← hlen]
    exact getElem?_append_middle (X ++ u :: Y) Z v
  rw [listSwap_eq_of_getElem? hu hv]
  rw [set_append_middle X (Y ++ v :: Z) u v]
  have h2 : X ++ v :: (Y ++ v :: Z) = (X ++ v :: Y) ++ v :: Z := by simp
  have hlen2 : (X ++ v :: Y).length = X.length + Y.length + 1 := by
    simp only [List.length_append, List.length_cons]
    omega
  rw [h2, ← hlen2, set_append_middle (X ++ v :: Y) Z v u]
  simp

theorem swap_decomp {l : List α} {i j : Nat} (hij : i < j) (hj : j < l.length)
    {a b : α} (ha : l[i]? = some a) (hb : l[j]? = some b) :
    ∃ X Y Z, l = X ++ a :: (Y ++ b :: Z) ∧ X.length = i ∧ X.length + Y.length + 1 = j := by
  refine ⟨l.take i, (l.drop (i + 1)).take (j - i - 1), l.drop (j + 1), ?_, ?_, ?_⟩
  · have e1 : l = l.take i ++ l.drop i := (List.take_append_drop i l).symm
    have e2 : l.drop i = a :: l.drop (i + 1) := by
      rcases List.getElem?_eq_some.mp ha with ⟨h, rfl⟩
      exact (List.getElem_cons_drop l i h).symm
    have e3 : l.drop (i + 1)
        = (l.drop (i + 1)).take (j - i - 1) ++ (l.drop (i + 1)).drop (j - i - 1) :=
      (List.take_append_drop _ _).symm
    have e4 : (l.drop (i + 1)).drop (j - i - 1) = l.drop j := by
      rw [List.drop_drop]
      congr 1
      omega
    have e5 : l.drop j = b :: l.drop (j + 1) := by
      rcases List.getElem?_eq_some.mp hb with ⟨h, rfl⟩
      exact (List.getElem_cons_drop l j h).symm
    rw [e4, e5] at e3
    conv_lhs => rw [e1, e2, e3]
  · simp only [List.length_take]
    omega
  · simp only [List.length_take, List.length_drop]
    omega

theorem middle_swap_perm (X Y Z : List α) (u v : α) :
    (X ++ v :: (Y ++ u :: Z)).Perm (X ++ u :: (Y ++ v :: Z)) := by
  apply List.Perm.append_left
  exact (List.Perm.cons v List.perm_middle).trans
    ((List.Perm.swap u v (Y ++ Z)).trans (List.Perm.cons u List.perm_middle.symm))

theorem swap_sets_perm {l : List α} {i j : Nat} (hij : i < j) {a b : α}
    (ha : l[i]? = some a) (hb : l[j]? = some b) :
    ((l.set i b).set j a).Perm l := by
  rcases swap_decomp hij (List.getElem?_eq_some.mp hb).1 ha hb with
    ⟨X, Y, Z, rfl, hXi, hXYj⟩
  rw [← hXi, ← hXYj]
  rw [set_append_middle X (Y ++ b :: Z) a b]
  have h2 : X ++ b :: (Y ++ b :: Z) = (X ++ b :: Y) ++ b :: Z := by simp
  have hlen2 : (X ++ b :: Y).length = X.length + Y.length + 1 := by
    simp only [List.length_append, List.length_cons]
    omega
  rw [h2, ← hlen2, set_append_middle (X ++ b :: Y) Z b a]
  have h3 : (X ++ b :: Y) ++ a :: Z = X ++ b :: (Y ++ a :: Z) := by simp
  rw [h3]
  exact middle_swap_perm X Y Z a b

theorem listSwap_none_left {l : List α} {i j : Nat} (ha : l[i]? = none) :
    listSwap l i j = l := by
  unfold listSwap
  rw [ha]

theorem listSwap_none_right {l : List α} {i j : Nat} (hb : l[j]? = none) :
    listSwap l i j = l := by
  unfold listSwap
  rw [hb]
  cases l[i]? <;> rfl

theorem listSwap_perm (l : List α) (i j : Nat) : (listSwap l i j).Perm l := by
  rcases Nat.lt_trichotomy i j with hij | rfl | hij
  · cases ha : l[i]? with
    | none => rw [listSwap_none_left ha]
    | some a =>
      cases hb : l[j]? with
      | none => rw [listSwap_none_right hb]
      | some b =>
        rw [listSwap_eq_of_getElem? ha hb]
        exact swap_sets_perm hij ha hb
  · rw [listSwap_self]
  · cases ha : l[i]? with
    | none => rw [listSwap_none_left ha]
    | some a =>
      cases hb : l[j]? with
      | none => rw [listSwap_none_right hb]
      | some b =>
        rw [listSwap_eq_of_getElem? ha hb]
        rw [List.set_comm _ _ _ (by omega : i ≠ j)]
        exact swap_sets_perm hij hb ha

theorem deleteSel_congr (sel₁ sel₂ : Nat → Bool) :
    ∀ (T : List α) (i : Nat), (∀ p, i ≤ p → p < i + T.length → sel₁ p = sel₂ p) →
      deleteSel sel₁ i T = deleteSel sel₂ i T := by
  intro T
  induction T with
  | nil => intro i _; rfl
  | cons t T2 ih =>
    intro i h
    simp only [deleteSel]
    rw [h i (Nat.le_refl i) (by simp), ih (i + 1) (fun p h1 h2 => h p (by omega)
      (by simp only [List.length_cons]; omega))]

theorem deleteSel_append (sel : Nat → Bool) :
    ∀ (X Y : List α) (i : Nat),
      deleteSel sel i (X ++ Y) = deleteSel sel i X ++ deleteSel sel (i + X.length) Y := by
  intro X
  induction X with
  | nil => intro Y i; simp [deleteSel]
  | cons x X2 ih =>
    intro Y i
    show deleteSel sel i (x :: (X2 ++ Y)) = _
    simp only [deleteSel]
    rw [ih Y (i + 1)]
    simp only [List.length_cons]
    have h1 : i + 1 + X2.length = i + (X2.length + 1) := by omega
    rw [h1]
    split <;> simp

theorem deleteSel_of_not_sel {sel : Nat → Bool} :
    ∀ (X : List α) (i : Nat), (∀ p, i ≤ p → p < i + X.length → sel p = false) →
      deleteSel sel i X = X := by
  intro X
  induction X with
  | nil => intro i _; rfl
  | cons x X2 ih =>
    intro i h
    simp only [deleteSel]
    rw [h i (Nat.le_refl i) (by simp), ih (i + 1) (fun p h1 h2 => h p (by omega)
      (by simp only [List.length_cons]; omega))]
    simp

theorem nodup_length_le_of_bounds {pending : List Nat} (a n : Nat)
    (hnd : pending.Nodup) (hb : ∀ x ∈ pending, a ≤ x ∧ x < a + n) :
    pending.length ≤ n := by
  have hsub : pending ⊆ List.range' a n := by
    intro x hx
    exact List.mem_range'_1.mpr (hb x hx)
  have := (hnd.subperm hsub).length_le
  simpa using this

theorem deleteSel_mem_length :
    ∀ (T : List α) (i : Nat) (pending : List Nat), pending.Nodup →
      (∀ x ∈ pending, i ≤ x ∧ x < i + T.length) →
      (deleteSel (fun p => decide (p ∈ pending)) i T).length
        = T.length - pending.length := by
  intro T
  induction T with
  | nil =>
    intro i pending _ hb
    have : pending = [] := by
      rw [List.eq_nil_iff_forall_not_mem]
      intro x hx
      have := hb x hx
      simp at this
      omega
    subst this
    rfl
  | cons t T2 ih =>
    intro i pending hnd hb
    by_cases hmem : i ∈ pending
    · have hlen1 : 1 ≤ pending.length := List.length_pos.mpr (by
        intro h; rw [h] at hmem; exact List.not_mem_nil i hmem)
      have e1 : deleteSel (fun p => decide (p ∈ pending)) i (t :: T2)
          = deleteSel (fun p => decide (p ∈ pending)) (i + 1) T2 := by
        simp [deleteSel, hmem]
      rw [e1]
      rw [deleteSel_congr (fun p => decide (p ∈ pending))
        (fun p => decide (p ∈ pending.erase i)) T2 (i + 1) (fun p h1 _h2 => by
          rw [decide_eq_decide, hnd.mem_erase_iff]
          constructor
          · intro hp; exact ⟨by omega, hp⟩
          · intro hp; exact hp.2)]
      rw [ih (i + 1) (pending.erase i) (hnd.erase i) (fun x hx => by
        have hxi : x ≠ i ∧ x ∈ pending := (hnd.mem_erase_iff).mp hx
        have := hb x hxi.2
        simp only [List.length_cons] at this
        omega)]
      rw [List.length_erase_of_mem hmem]
      simp only [List.length_cons]
      omega
    · have e1 : deleteSel (fun p => decide (p ∈ pending)) i (t :: T2)
          = t :: deleteSel (fun p => decide (p ∈ pending)) (i + 1) T2 := by
        simp [deleteSel, hmem]
      rw [e1]
      simp only [List.length_cons]
      rw [ih (i + 1) pending hnd (fun x hx => by
        have h1 := hb x hx
        have h2 : x ≠ i := fun he => hmem (he ▸ hx)
        simp only [List.length_cons] at h1
        omega)]
      have hle : pending.length ≤ T2.length :=
        nodup_length_le_of_bounds (i + 1) T2.length hnd (fun x hx => by
          have h1 := hb x hx
          have h2 : x ≠ i := fun he => hmem (he ▸ hx)
          simp only [List.length_cons] at h1
          omega)
      omega

theorem eraseIdx_last (l : List α) : l.eraseIdx (l.length - 1) = l.dropLast := by
  rw [List.eraseIdx_eq_take_drop_succ, List.dropLast_eq_take]
  cases l with
  | nil => rfl
  | cons a t =>
    have h : (a :: t).length - 1 + 1 = (a :: t).length := by simp
    rw [h, List.drop_length, List.append_nil]

/-! ## Claim theorems: index resolver and `pop` -/

/-- C5: For every length and raw scalar index `i`, `get_pos` returns
position `i` exactly when `0 ≤ i < length`, and position
`length - |i|` exactly when `i < 0` and `|i| ≤ length`; in all other
cases it returns `none`, and every resolved position is a valid
front-counted index (`< length`). -/
theorem get_pos_spec (len : Nat) (p : Int) :
    (0 ≤ p → get_pos len p = if p < (len : Int) then some p.toNat else none)
    ∧ (p < 0 → get_pos len p = if p.natAbs ≤ len then some (len - p.natAbs) else none)
    ∧ (∀ idx, get_pos len p = some idx → idx < len) := by
  unfold get_pos
  refine ⟨?_, ?_, ?_⟩
  · intro hp
    rw [if_neg (by omega : ¬ p < 0)]
    split
    · next h => rw [if_neg (by omega)]
    · next h => rw [if_pos (by omega)]
  · intro hp
    rw [if_pos hp]
    split
    · next h => rw [if_neg (by omega)]
    · next h =>
      rw [if_pos (by omega)]
      congr 1
      omega
  · intro idx
    split
    · split
      · intro h; exact Option.noConfusion h
      · next h =>
        intro h2
        injection h2 with h3
        omega
    · split
      · intro h; exact Option.noConfusion h
      · next h =>
        intro h2
        injection h2 with h3
        omega

/-- Witness for C5 at `len = 3`, `p = -2`. -/
theorem get_pos_spec_witness :
    ((-2 : Int) < 0) ∧ get_pos 3 (-2) = some 1 := by
  refine ⟨by decide, ?_⟩
  have h := (get_pos_spec 3 (-2)).2.1 (by decide)
  rw [h]
  decide

/-- C7: `pop` with no argument removes and returns the last element;
`pop i` normalizes a negative `i` by adding the length; it fails with an
`IndexError` exactly when the container is empty or the normalized index
falls outside `[0, length)`, leaving the container unchanged on failure;
on success it removes and returns the element at the normalized index. -/
theorem pop_spec [Inhabited α] (l : List α) (i : Int) :
    (∀ h : l ≠ [], pop l none = (l.dropLast, .ok (l.getLast h)))
    ∧ (∀ j, l = [] → pop l j = ([], .error (.indexError "pop from empty list")))
    ∧ ((∃ m, (pop l (some i)).2 = Except.error (.indexError m)) ↔
        (l = [] ∨ popNorm l i < 0 ∨ (l.length : Int) ≤ popNorm l i))
    ∧ ((∃ m, (pop l (some i)).2 = Except.error (.indexError m)) → (pop l (some i)).1 = l)
    ∧ (l ≠ [] → 0 ≤ popNorm l i → popNorm l i < (l.length : Int) →
        pop l (some i) = (l.eraseIdx (popNorm l i).toNat,
          .ok (l.getD (popNorm l i).toNat default))) := by
  refine ⟨?_, ?_, ?_, ?_, ?_⟩
  · intro h
    have hne : l.isEmpty = false := by
      rw [← Bool.not_eq_true, List.isEmpty_iff]
      exact h
    have hlen : 1 ≤ l.length := List.length_pos_of_ne_nil h
    have hnorm : popNorm l ((none : Option Int).getD (-1)) = -1 + l.length := by
      rw [Option.getD_none, popNorm, if_pos (by decide : (-1 : Int) < 0)]
    rw [pop, hne, hnorm]
    simp only [Bool.false_eq_true, if_false]
    rw [if_neg (by omega : ¬ (-1 + (l.length : Int) < 0 ∨ (l.length : Int) ≤ -1 + l.length))]
    have htn : (-1 + (l.length : Int)).toNat = l.length - 1 := by omega
    rw [htn, eraseIdx_last]
    rw [List.getD_eq_getElem l default (by omega : l.length - 1 < l.length)]
    rw [List.getLast_eq_getElem l h]
  · intro j hl
    subst hl
    rfl
  · have hni : ((some i).getD (-1)) = i := rfl
    by_cases hl : l = []
    · subst hl
      constructor
      · intro _
        exact Or.inl rfl
      · intro _
        exact ⟨"pop from empty list", rfl⟩
    · have hne : l.isEmpty = false := by
        rw [← Bool.not_eq_true, List.isEmpty_iff]
        exact hl
      rw [pop, hne, hni]
      simp only [Bool.false_eq_true, if_false]
      by_cases hc : popNorm l i < 0 ∨ (l.length : Int) ≤ popNorm l i
      · rw [if_pos hc]
        exact ⟨fun _ => Or.inr hc, fun _ => ⟨"pop index out of range", rfl⟩⟩
      · rw [if_neg hc]
        constructor
        · intro ⟨m, hm⟩
          exact Except.noConfusion hm
        · intro h2
          rcases h2 with h2 | h2
          · exact absurd h2 hl
          · exact absurd h2 hc
  · have hni : ((some i).getD (-1)) = i := rfl
    by_cases hl : l = []
    · subst hl
      intro _
      rfl
    · have hne : l.isEmpty = false := by
        rw [← Bool.not_eq_true, List.isEmpty_iff]
        exact hl
      rw [pop, hne, hni]
      simp only [Bool.false_eq_true, if_false]
      by_cases hc : popNorm l i < 0 ∨ (l.length : Int) ≤ popNorm l i
      · rw [if_pos hc]
        intro _
        rfl
      · rw [if_neg hc]
        intro ⟨m, hm⟩
        exact Except.noConfusion hm
  · intro hl h0 hlt
    have hne : l.isEmpty = false := by
      rw [← Bool.not_eq_true, List.isEmpty_iff]
      exact hl
    have hni : ((some i).getD (-1)) = i := rfl
    rw [pop, hne, hni]
    simp only [Bool.false_eq_true, if_false]
    rw [if_neg (by omega : ¬ (popNorm l i < 0 ∨ (l.length : Int) ≤ popNorm l i))]

/-- Witness for C7 at `l = [10, 20, 30]`, `i = -3`. -/
theorem pop_spec_witness :
    (([10, 20, 30] : List Nat) ≠ [])
    ∧ pop ([10, 20, 30] : List Nat) none = ([10, 20], .ok 30)
    ∧ pop ([10, 20, 30] : List Nat) (some (-3)) = ([20, 30], .ok 10) := by
  refine ⟨by decide, ?_, ?_⟩
  · have h := (pop_spec ([10, 20, 30] : List Nat) 0).1 (by decide)
    rw [h]
    rfl
  · have h := (pop_spec ([10, 20, 30] : List Nat) (-3)).2.2.2.2
      (by decide) (by decide) (by decide)
    rw [h]
    rfl

/-! ## Claim theorems: reverse-step bound adjustment (C3) -/

theorem get_slice_pos_ge_len (len : Nat) (x : Int) (hx : (len : Int) ≤ x) :
    get_slice_pos len x = len := by
  unfold get_slice_pos
  split
  · next idx heq =>
    split at heq
    · next =>
      unfold get_pos at heq
      rw [if_neg (by omega : ¬ x < 0)] at heq
      rw [if_pos (by omega : len ≤ x.toNat)] at heq
      exact Option.noConfusion heq
    · exact Option.noConfusion heq
  · next => rw [if_neg (by omega : ¬ x < 0)]

/-- C3 counterexample: the reverse-step adjustment that `setslice` and
`delslice` apply to a raw *stop* bound maps `-1` to `length` (here `3`),
not to `length + 1` (`4`) as the claim states. -/
theorem rev_adjust_stop_counterexample :
    revAdjStop 3 (-1) = 3 ∧ ¬ revAdjStop 3 (-1) = (3 : Int) + 1 := by
  constructor <;> decide

/-- C3 (amended): for `step < 0`, a raw *start* bound of exactly `-1` is
reinterpreted as `length + 1` and a raw *stop* bound of exactly `-1` as
`length`; every other raw bound is incremented by one; the two choices
resolve to the same clamped position (`length`), so the ascending range —
computed with the transformed stop bound first — is unaffected. -/
theorem rev_adjust_spec (len : Nat) (x : Int) :
    revAdjStart len x = (if x = -1 then (len : Int) + 1 else x + 1)
    ∧ revAdjStop len x = (if x = -1 then (len : Int) else x + 1)
    ∧ get_slice_pos len (revAdjStop len x) = get_slice_pos len (revAdjStart len x) := by
  refine ⟨rfl, rfl, ?_⟩
  by_cases hx : x = -1
  · subst hx
    rw [revAdjStart, revAdjStop, if_pos rfl, if_pos rfl]
    rw [get_slice_pos_ge_len len (len : Int) (by omega)]
    rw [get_slice_pos_ge_len len ((len : Int) + 1) (by omega)]
  · rw [revAdjStart, revAdjStop, if_neg hx, if_neg hx]

/-! ## Claim theorems: iteration cursors (C9) -/

theorem iterStepsFuel_succ (l : List α) (fuel pos : Nat) :
    iterStepsFuel l (fuel + 1) pos
      = match iterNext l pos with
        | none => 0
        | some (_, p2) => iterStepsFuel l fuel p2 + 1 := rfl

theorem reviterStepsFuel_succ (l : List α) (fuel pos : Nat) :
    reviterStepsFuel l (fuel + 1) pos
      = match reviterNext l pos with
        | none => 0
        | some (_, p2) => reviterStepsFuel l fuel p2 + 1 := rfl

theorem iterStepsFuel_eq (l : List α) :
    ∀ (fuel pos : Nat), pos ≤ l.length → l.length - pos ≤ fuel →
      iterStepsFuel l fuel pos = l.length - pos := by
  intro fuel
  induction fuel with
  | zero =>
    intro pos _ h2
    simp only [iterStepsFuel]
    omega
  | succ fuel ih =>
    intro pos h1 h2
    by_cases hlt : pos < l.length
    · obtain ⟨a, ha⟩ : ∃ a, l[pos]? = some a := by
        rw [List.getElem?_eq_getElem hlt]
        exact ⟨_, rfl⟩
      have hnext : iterNext l pos = some (a, pos + 1) := by
        rw [iterNext, ha]
        rfl
      rw [iterStepsFuel_succ, hnext]
      show iterStepsFuel l fuel (pos + 1) + 1 = l.length - pos
      rw [ih (pos + 1) (by omega) (by omega)]
      omega
    · have hnext : iterNext l pos = none := by
        rw [iterNext, List.getElem?_eq_none (by omega : l.length ≤ pos)]
        rfl
      rw [iterStepsFuel_succ, hnext]
      show 0 = l.length - pos
      omega

theorem reviterStepsFuel_eq (l : List α) :
    ∀ (fuel pos : Nat), pos ≤ l.length → pos ≤ fuel →
      reviterStepsFuel l fuel pos = pos := by
  intro fuel
  induction fuel with
  | zero =>
    intro pos _ h2
    simp only [reviterStepsFuel]
    omega
  | succ fuel ih =>
    intro pos h1 h2
    by_cases hpos : 0 < pos
    · have hm : pos - 1 < l.length := by omega
      obtain ⟨a, ha⟩ : ∃ a, l[pos - 1]? = some a := by
        rw [List.getElem?_eq_getElem hm]
        exact ⟨_, rfl⟩
      have hnext : reviterNext l pos = some (a, pos - 1) := by
        rw [reviterNext, if_pos hpos, ha]
        rfl
      rw [reviterStepsFuel_succ, hnext]
      show reviterStepsFuel l fuel (pos - 1) + 1 = pos
      rw [ih (pos - 1) (by omega) (by omega)]
      omega
    · have hnext : reviterNext l pos = none := by
        rw [reviterNext, if_neg hpos]
      rw [reviterStepsFuel_succ, hnext]
      show 0 = pos
      omega

/-- C9: against the live container state (any `l`, including one mutated
since cursor creation) with cursor position at most the current length,
the forward cursor's remaining-count hint is the current length minus the
position and the reverse cursor's hint is the position, and each equals
the number of elements the cursor still yields before exhaustion if the
container stays fixed from this instant on. -/
theorem length_hint_spec (l : List α) (pos : Nat) (hpos : pos ≤ l.length) :
    iterLengthHint l pos = l.length - pos
    ∧ (∀ fuel, l.length - pos ≤ fuel → iterStepsFuel l fuel pos = iterLengthHint l pos)
    ∧ reviterLengthHint l pos = pos
    ∧ (∀ fuel, pos ≤ fuel → reviterStepsFuel l fuel pos = reviterLengthHint l pos) := by
  refine ⟨rfl, ?_, rfl, ?_⟩
  · intro fuel hf
    rw [iterStepsFuel_eq l fuel pos hpos hf]
    rfl
  · intro fuel hf
    rw [reviterStepsFuel_eq l fuel pos hpos hf]
    rfl

/-- Witness for C9 at `l = [5, 6, 7]`, `pos = 1`. -/
theorem length_hint_spec_witness :
    (1 ≤ ([5, 6, 7] : List Nat).length)
    ∧ iterLengthHint ([5, 6, 7] : List Nat) 1 = 2
    ∧ iterStepsFuel ([5, 6, 7] : List Nat) 2 1 = 2
    ∧ reviterLengthHint ([5, 6, 7] : List Nat) 1 = 1
    ∧ reviterStepsFuel ([5, 6, 7] : List Nat) 1 1 = 1 := by
  have h := length_hint_spec ([5, 6, 7] : List Nat) 1 (by decide)
  refine ⟨by decide, h.1, ?_, h.2.2.1, ?_⟩
  · rw [h.2.1 2 (by decide)]
    rfl
  · rw [h.2.2.2 1 (by decide)]
    rfl

/-! ## Claim theorems: replacement source materialized first (C6) -/

/-- C6: for every slice assignment (unit-step, forward stepped, reverse
stepped, and the `setslice` dispatcher for any non-zero step), if
collecting the replacement source fails, the operation returns exactly
that error and the container is unchanged. -/
theorem set_slice_materialize_first (l : List α) (start stop step : Nat)
    (startI stopI stepI : Option Int) (sec : List (Except PyErr α)) (e : PyErr)
    (hc : collectItems sec = .error e) :
    _set_slice l start stop sec = (l, .error e)
    ∧ _set_stepped_slice l start stop step sec = (l, .error e)
    ∧ _set_stepped_slice_reverse l start stop step sec = (l, .error e)
    ∧ (stepI.getD 1 ≠ 0 → setslice l startI stopI stepI sec = (l, .error e)) := by
  have h1 : ∀ a b, _set_slice l a b sec = (l, .error e) := by
    intro a b
    rw [_set_slice, hc]
  have h2 : ∀ a b c, _set_stepped_slice l a b c sec = (l, .error e) := by
    intro a b c
    rw [_set_stepped_slice, hc]
  have h3 : ∀ a b c, _set_stepped_slice_reverse l a b c sec = (l, .error e) := by
    intro a b c
    rw [_set_stepped_slice_reverse, hc]
  refine ⟨h1 start stop, h2 start stop step, h3 start stop step, ?_⟩
  intro hstep
  simp only [setslice]
  rw [if_neg hstep]
  split_ifs <;>
    first
      | exact h1 _ _
      | exact h2 _ _ _
      | exact h3 _ _ _

/-- Witness for C6 at a concrete failing source. -/
theorem set_slice_materialize_first_witness :
    collectItems [Except.ok 1, Except.error (PyErr.typeError "boom")]
      = Except.error (PyErr.typeError "boom")
    ∧ _set_slice ([7, 8, 9] : List Nat) 0 2
        [Except.ok 1, Except.error (PyErr.typeError "boom")]
      = ([7, 8, 9], .error (.typeError "boom"))
    ∧ setslice ([7, 8, 9] : List Nat) none none (some 2)
        [Except.ok 1, Except.error (PyErr.typeError "boom")]
      = ([7, 8, 9], .error (.typeError "boom")) := by
  have hc : collectItems [Except.ok 1, Except.error (PyErr.typeError "boom")]
      = Except.error (PyErr.typeError "boom") := rfl
  have h := set_slice_materialize_first ([7, 8, 9] : List Nat) 0 2 1 none none
    (some 2) [Except.ok 1, Except.error (PyErr.typeError "boom")]
    (PyErr.typeError "boom") hc
  exact ⟨hc, h.1, h.2.2.2 (by decide)⟩

/-! ## Stepped-index and `_replace_indexes` lemmas -/

theorem ceil_div_eq (a s : Nat) (ha : 1 ≤ a) (hs : 1 ≤ s) :
    (a - 1) / s + 1 = (a + s - 1) / s := by
  have h : a + s - 1 = (a - 1) + s := by omega
  rw [h, Nat.add_div_right _ hs]

theorem length_replace_indexes :
    ∀ (ps : List (Nat × α)) (l : List α), (_replace_indexes l ps).length = l.length := by
  intro ps
  induction ps with
  | nil => intro l; rfl
  | cons q rest ih =>
    intro l
    rcases q with ⟨i, v⟩
    rw [_replace_indexes, ih, List.length_set]

theorem replace_indexes_getElem_not_mem :
    ∀ (ps : List (Nat × α)) (l : List α) (p : Nat),
      (∀ q ∈ ps, p ≠ q.1) → (_replace_indexes l ps)[p]? = l[p]? := by
  intro ps
  induction ps with
  | nil => intro l p _; rfl
  | cons q rest ih =>
    intro l p h
    rcases q with ⟨i, v⟩
    rw [_replace_indexes, ih (l.set i v) p (fun q hq => h q (List.mem_cons_of_mem _ hq))]
    exact List.getElem?_set_ne (fun he => h (i, v) (List.mem_cons_self _ _) he.symm)

theorem replace_indexes_getElem_mem :
    ∀ (ps : List (Nat × α)) (l : List α) (i : Nat) (v : α),
      (i, v) ∈ ps → (ps.map Prod.fst).Pairwise (fun a b => a ≠ b) → i < l.length →
      (_replace_indexes l ps)[i]? = some v := by
  intro ps
  induction ps with
  | nil =>
    intro l i v hmem _ _
    exact absurd hmem (List.not_mem_nil _)
  | cons q rest ih =>
    intro l i v hmem hdist hi
    rcases q with ⟨j, w⟩
    rw [List.map_cons, List.pairwise_cons] at hdist
    rcases List.mem_cons.mp hmem with heq | htail
    · injection heq with he1 he2
      subst he1; subst he2
      rw [_replace_indexes]
      rw [replace_indexes_getElem_not_mem rest (l.set i v) i (fun q hq => by
        exact hdist.1 q.1 (List.mem_map_of_mem Prod.fst hq))]
      exact List.getElem?_set_self hi
    · rw [_replace_indexes]
      exact ih (l.set j w) i v htail hdist.2 (by rw [List.length_set]; exact hi)

theorem length_steppedIndexes (start stop step : Nat) :
    (steppedIndexes start stop step).length = steppedCount start stop step := by
  rw [steppedIndexes, List.length_map, List.length_range]

theorem length_steppedIndexesRev (start stop step : Nat) :
    (steppedIndexesRev start stop step).length = steppedCount start stop step := by
  rw [steppedIndexesRev, List.length_map, List.length_range]

theorem steppedIndexes_getElem {start stop step k : Nat}
    (hk : k < steppedCount start stop step) :
    (steppedIndexes start stop step)[k]? = some (start + k * step) := by
  rw [steppedIndexes]
  rw [List.getElem?_eq_getElem (by rw [List.length_map, List.length_range]; exact hk)]
  congr 1
  rw [List.getElem_map, List.getElem_range]

theorem steppedIndexesRev_getElem {start stop step k : Nat}
    (hk : k < steppedCount start stop step) :
    (steppedIndexesRev start stop step)[k]? = some (stop - 1 - k * step) := by
  rw [steppedIndexesRev]
  rw [List.getElem?_eq_getElem (by rw [List.length_map, List.length_range]; exact hk)]
  congr 1
  rw [List.getElem_map, List.getElem_range]

theorem steppedIndexes_bound {start stop step k : Nat} (h1 : start < stop)
    (hk : k < steppedCount start stop step) :
    start + k * step ≤ stop - 1 := by
  rw [steppedCount, if_pos h1] at hk
  have hk2 : k ≤ (stop - start - 1) / step := by omega
  have h3 : k * step ≤ (stop - start - 1) / step * step :=
    Nat.mul_le_mul_right step hk2
  have h4 : (stop - start - 1) / step * step ≤ stop - start - 1 :=
    Nat.div_mul_le_self _ _
  omega

theorem mem_steppedIndexes {start stop step x : Nat} :
    x ∈ steppedIndexes start stop step
      ↔ ∃ k, k < steppedCount start stop step ∧ x = start + k * step := by
  rw [steppedIndexes, List.mem_map]
  constructor
  · intro ⟨k, hk, he⟩
    exact ⟨k, List.mem_range.mp hk, he.symm⟩
  · intro ⟨k, hk, he⟩
    exact ⟨k, List.mem_range.mpr hk, he.symm⟩

theorem mem_steppedIndexesRev {start stop step x : Nat} :
    x ∈ steppedIndexesRev start stop step
      ↔ ∃ k, k < steppedCount start stop step ∧ x = stop - 1 - k * step := by
  rw [steppedIndexesRev, List.mem_map]
  constructor
  · intro ⟨k, hk, he⟩
    exact ⟨k, List.mem_range.mp hk, he.symm⟩
  · intro ⟨k, hk, he⟩
    exact ⟨k, List.mem_range.mpr hk, he.symm⟩

theorem steppedIndexes_pairwise_lt {start stop step : Nat} (h3 : 1 ≤ step) :
    (steppedIndexes start stop step).Pairwise (fun a b => a < b) := by
  rw [steppedIndexes]
  apply List.pairwise_map.mpr
  apply (List.pairwise_lt_range _).imp
  intro a b hab
  have : a * step < b * step := by
    apply Nat.mul_lt_mul_of_lt_of_le hab (Nat.le_refl step)
    omega
  omega

theorem steppedIndexesRev_pairwise_gt {start stop step : Nat} (h1 : start < stop)
    (h3 : 1 ≤ step) :
    (steppedIndexesRev start stop step).Pairwise (fun a b => a > b) := by
  rw [steppedIndexesRev]
  apply List.pairwise_map.mpr
  apply (List.pairwise_lt_range _).imp_of_mem
  intro a b ha hb hab
  have hbound := steppedIndexes_bound h1 (List.mem_range.mp hb)
  have : a * step < b * step := by
    apply Nat.mul_lt_mul_of_lt_of_le hab (Nat.le_refl step)
    omega
  omega

theorem set_stepped_key (l : List α) (start stop step : Nat)
    (sec : List (Except PyErr α)) (items : List α)
    (h1 : start < stop) (hc : collectItems sec = .ok items) :
    _set_stepped_slice l start stop step sec
      = if items.length = (stop - start - 1) / step + 1
        then (_replace_indexes l ((steppedIndexes start stop step).zip items), .ok ())
        else (l, .error (.valueError ("attempt to assign sequence of size "
          ++ toString items.length ++ " to extended slice of size "
          ++ toString ((stop - start - 1) / step + 1)))) := by
  simp only [_set_stepped_slice, hc]
  simp only [if_pos h1]

theorem set_stepped_rev_key (l : List α) (start stop step : Nat)
    (sec : List (Except PyErr α)) (items : List α)
    (h1 : start < stop) (hc : collectItems sec = .ok items) :
    _set_stepped_slice_reverse l start stop step sec
      = if items.length = (stop - start - 1) / step + 1
        then (_replace_indexes l ((steppedIndexesRev start stop step).zip items), .ok ())
        else (l, .error (.valueError ("attempt to assign sequence of size "
          ++ toString items.length ++ " to extended slice of size "
          ++ toString ((stop - start - 1) / step + 1)))) := by
  simp only [_set_stepped_slice_reverse, hc]
  simp only [if_pos h1]

/-- C2: for every non-degenerate resolved range and step (forward or
reverse), stepped slice assignment succeeds iff the collected replacement
length equals the slice length `ceil((stop - start) / step)`; a mismatch
yields a `ValueError` with the container untouched; on success each
step-selected position (in traversal order) receives the corresponding
replacement element, every other position is untouched, and the length is
unchanged. -/
theorem set_stepped_slice_spec (l : List α) (start stop step : Nat)
    (sec : List (Except PyErr α)) (items : List α)
    (h1 : start < stop) (h2 : stop ≤ l.length) (h3 : 1 ≤ step)
    (hc : collectItems sec = .ok items) :
    ((_set_stepped_slice l start stop step sec).2 = .ok ()
        ↔ items.length = (stop - start + step - 1) / step)
    ∧ ((_set_stepped_slice_reverse l start stop step sec).2 = .ok ()
        ↔ items.length = (stop - start + step - 1) / step)
    ∧ (items.length ≠ (stop - start + step - 1) / step →
        (∃ m, _set_stepped_slice l start stop step sec = (l, .error (.valueError m)))
        ∧ (∃ m, _set_stepped_slice_reverse l start stop step sec
            = (l, .error (.valueError m))))
    ∧ (items.length = (stop - start + step - 1) / step →
        (_set_stepped_slice l start stop step sec).1.length = l.length
        ∧ (_set_stepped_slice_reverse l start stop step sec).1.length = l.length
        ∧ (∀ k, k < items.length →
            (_set_stepped_slice l start stop step sec).1[start + k * step]? = items[k]?
            ∧ (_set_stepped_slice_reverse l start stop step sec).1[stop - 1 - k * step]?
                = items[k]?)
        ∧ (∀ p, (∀ k, k < items.length → p ≠ start + k * step) →
            (_set_stepped_slice l start stop step sec).1[p]? = l[p]?)
        ∧ (∀ p, (∀ k, k < items.length → p ≠ stop - 1 - k * step) →
            (_set_stepped_slice_reverse l start stop step sec).1[p]? = l[p]?)) := by
  have hcc : (stop - start + step - 1) / step = (stop - start - 1) / step + 1 :=
    (ceil_div_eq (stop - start) step (by omega) h3).symm
  have hcnt : steppedCount start stop step = (stop - start - 1) / step + 1 := by
    rw [steppedCount, if_pos h1]
  have keyF := set_stepped_key l start stop step sec items h1 hc
  have keyR := set_stepped_rev_key l start stop step sec items h1 hc
  rw [hcc]
  refine ⟨?_, ?_, ?_, ?_⟩
  · rw [keyF]
    by_cases hn : items.length = (stop - start - 1) / step + 1
    · rw [if_pos hn]
      exact ⟨fun _ => hn, fun _ => rfl⟩
    · rw [if_neg hn]
      exact ⟨fun h => absurd h (fun h2 => Except.noConfusion h2), fun h => absurd h hn⟩
  · rw [keyR]
    by_cases hn : items.length = (stop - start - 1) / step + 1
    · rw [if_pos hn]
      exact ⟨fun _ => hn, fun _ => rfl⟩
    · rw [if_neg hn]
      exact ⟨fun h => absurd h (fun h2 => Except.noConfusion h2), fun h => absurd h hn⟩
  · intro hn
    rw [keyF, keyR, if_neg hn, if_neg hn]
    exact ⟨⟨_, rfl⟩, ⟨_, rfl⟩⟩
  · intro hn
    rw [keyF, keyR, if_pos hn, if_pos hn]
    have hlenF : (steppedIndexes start stop step).length = items.length := by
      rw [length_steppedIndexes, hcnt, hn]
    have hlenR : (steppedIndexesRev start stop step).length = items.length := by
      rw [length_steppedIndexesRev, hcnt, hn]
    have hdistF : (((steppedIndexes start stop step).zip items).map Prod.fst).Pairwise
        (fun a b => a ≠ b) := by
      rw [List.map_fst_zip _ _ (by omega)]
      exact (steppedIndexes_pairwise_lt h3).imp (fun h => Nat.ne_of_lt h)
    have hdistR : (((steppedIndexesRev start stop step).zip items).map Prod.fst).Pairwise
        (fun a b => a ≠ b) := by
      rw [List.map_fst_zip _ _ (by omega)]
      exact (steppedIndexesRev_pairwise_gt h1 h3).imp (fun h => Nat.ne_of_gt h)
    refine ⟨length_replace_indexes _ _, length_replace_indexes _ _, ?_, ?_, ?_⟩
    · intro k hk
      have hkc : k < steppedCount start stop step := by omega
      obtain ⟨a, ha⟩ : ∃ a, items[k]? = some a :=
        ⟨_, List.getElem?_eq_getElem hk⟩
      have hzlen : k < ((steppedIndexes start stop step).zip items).length := by
        rw [List.length_zip]
        omega
      have hzlenR : k < ((steppedIndexesRev start stop step).zip items).length := by
        rw [List.length_zip]
        omega
      constructor
      · have hmemF : (start + k * step, a) ∈ (steppedIndexes start stop step).zip items := by
          apply List.getElem?_mem
          rw [List.getElem?_eq_getElem hzlen]
          congr 1
          rw [List.getElem_zip]
          have e1 : (steppedIndexes start stop step)[k] = start + k * step := by
            have := steppedIndexes_getElem hkc
            rw [List.getElem?_eq_getElem (by omega)] at this
            exact Option.some.inj this
          have e2 : items[k] = a := by
            rw [List.getElem?_eq_getElem hk] at ha
            exact Option.some.inj ha
          rw [e1, e2]
        rw [replace_indexes_getElem_mem _ l (start + k * step) a hmemF hdistF (by
          have := steppedIndexes_bound h1 hkc
          omega), ha]
      · have hmemR : (stop - 1 - k * step, a)
            ∈ (steppedIndexesRev start stop step).zip items := by
          apply List.getElem?_mem
          rw [List.getElem?_eq_getElem hzlenR]
          congr 1
          rw [List.getElem_zip]
          have e1 : (steppedIndexesRev start stop step)[k] = stop - 1 - k * step := by
            have := steppedIndexesRev_getElem hkc
            rw [List.getElem?_eq_getElem (by omega)] at this
            exact Option.some.inj this
          have e2 : items[k] = a := by
            rw [List.getElem?_eq_getElem hk] at ha
            exact Option.some.inj ha
          rw [e1, e2]
        rw [replace_indexes_getElem_mem _ l (stop - 1 - k * step) a hmemR hdistR (by
          omega), ha]
    · intro p hp
      apply replace_indexes_getElem_not_mem
      intro q hq
      have hq1 : q.1 ∈ steppedIndexes start stop step := by
        have := List.mem_map_of_mem Prod.fst hq
        rw [List.map_fst_zip _ _ (by omega)] at this
        exact this
      obtain ⟨k, hk, he⟩ := mem_steppedIndexes.mp hq1
      rw [he]
      exact hp k (by omega)
    · intro p hp
      apply replace_indexes_getElem_not_mem
      intro q hq
      have hq1 : q.1 ∈ steppedIndexesRev start stop step := by
        have := List.mem_map_of_mem Prod.fst hq
        rw [List.map_fst_zip _ _ (by omega)] at this
        exact this
      obtain ⟨k, hk, he⟩ := mem_steppedIndexesRev.mp hq1
      rw [he]
      exact hp k (by omega)

/-- Witness for C2 at `l = [0..6]`, slice `(1, 6, 2)`, replacement
`[10, 30, 50]`. -/
theorem set_stepped_slice_spec_witness :
    (1 < 6 ∧ 6 ≤ ([0, 1, 2, 3, 4, 5, 6] : List Nat).length ∧ 1 ≤ 2
      ∧ collectItems [Except.ok 10, Except.ok 30, Except.ok 50]
          = Except.ok ([10, 30, 50] : List Nat))
    ∧ (_set_stepped_slice ([0, 1, 2, 3, 4, 5, 6] : List Nat) 1 6 2
        [Except.ok 10, Except.ok 30, Except.ok 50]).2 = .ok () := by
  refine ⟨⟨by decide, by decide, by decide, rfl⟩, ?_⟩
  exact ((set_stepped_slice_spec ([0, 1, 2, 3, 4, 5, 6] : List Nat) 1 6 2
    [Except.ok 10, Except.ok 30, Except.ok 50] [10, 30, 50]
    (by decide) (by decide) (by decide) rfl).1).mpr (by decide)

/-! ## Stepped deletion: loop invariants -/

theorem delSteppedAux_nil (pending : List Nat) (d : Nat) (e : List α) :
    delSteppedAux [] pending d e = (e, d) := rfl

theorem delSteppedAux_cons_nil (i : Nat) (is : List Nat) (d : Nat) (e : List α) :
    delSteppedAux (i :: is) [] d e = delSteppedAux is [] d (listSwap e (i - d) i) := rfl

theorem delSteppedAux_cons_cons (i : Nat) (is : List Nat) (j : Nat) (js : List Nat)
    (d : Nat) (e : List α) :
    delSteppedAux (i :: is) (j :: js) d e
      = if j = i then delSteppedAux is js (d + 1) e
        else delSteppedAux is (j :: js) d (listSwap e (i - d) i) := rfl

/-- Invariant of the forward stepped-deletion walk: at each point the
elements are a processed prefix `P` (survivors already compacted), the
`d` displaced elements `J`, the unscanned window `T`, and the untouched
tail `U`; the walk moves every surviving window element onto the end of
`P` and every selected one into the displaced block. -/
theorem delSteppedAux_invariant :
    ∀ (n i : Nat) (pending : List Nat) (P J T U : List α) (d : Nat),
      P.length + d = i →
      J.length = d →
      T.length = n →
      pending.Pairwise (fun a b => a < b) →
      (∀ x ∈ pending, i ≤ x ∧ x < i + n) →
      ∃ J2 : List α,
        delSteppedAux (List.range' i n) pending d (P ++ (J ++ (T ++ U)))
          = (P ++ (deleteSel (fun p => decide (p ∈ pending)) i T ++ (J2 ++ U)),
             d + pending.length)
        ∧ J2.length = d + pending.length := by
  intro n
  induction n with
  | zero =>
    intro i pending P J T U d hP hJ hT _hpw hb
    have hTnil : T = [] := List.length_eq_zero.mp hT
    have hpnil : pending = [] := by
      rw [List.eq_nil_iff_forall_not_mem]
      intro x hx
      have := hb x hx
      omega
    subst hTnil; subst hpnil
    refine ⟨J, ?_, by simp [hJ]⟩
    rw [show List.range' i 0 = [] from rfl, delSteppedAux_nil]
    simp [deleteSel]
  | succ n ih =>
    intro i pending P J T U d hP hJ hT hpw hb
    rcases T with _ | ⟨t, T2⟩
    · simp at hT
    have hT2 : T2.length = n := by
      rw [List.length_cons] at hT
      omega
    rw [List.range'_succ]
    rcases pending with _ | ⟨j, js⟩
    · -- no pending deletions: swap the survivor toward the front
      rw [delSteppedAux_cons_nil]
      have hsel : deleteSel (fun p => decide (p ∈ ([] : List Nat))) i (t :: T2)
          = t :: deleteSel (fun p => decide (p ∈ ([] : List Nat))) (i + 1) T2 := by
        simp [deleteSel]
      rcases J with _ | ⟨j0, J1⟩
      · have hd0 : d = 0 := by simpa using hJ.symm
        subst hd0
        have hswap : listSwap (P ++ ([] ++ (t :: T2 ++ U))) (i - 0) i
            = (P ++ [t]) ++ ([] ++ (T2 ++ U)) := by
          have hii : i - 0 = i := by omega
          rw [hii, listSwap_self]
          simp
        rw [hswap]
        obtain ⟨J2, he, hl⟩ := ih (i + 1) [] (P ++ [t]) [] T2 U 0
          (by simp; omega) rfl hT2 List.Pairwise.nil (by simp)
        refine ⟨J2, ?_, by simpa using hl⟩
        rw [he, hsel]
        simp only [Prod.mk.injEq]
        exact ⟨by simp, trivial⟩
      · have hd : d = J1.length + 1 := by
          rw [← hJ, List.length_cons]
        have hPlen : P.length = i - d := by omega
        have harr : P ++ ((j0 :: J1) ++ (t :: T2 ++ U))
            = P ++ j0 :: (J1 ++ t :: (T2 ++ U)) := by simp
        have hswap : listSwap (P ++ ((j0 :: J1) ++ (t :: T2 ++ U))) (i - d) i
            = (P ++ [t]) ++ ((J1 ++ [j0]) ++ (T2 ++ U)) := by
          rw [harr]
          have e1 : i - d = P.length := by omega
          have e2 : i = P.length + J1.length + 1 := by omega
          rw [e1, e2, listSwap_append]
          simp
        rw [hswap]
        obtain ⟨J2, he, hl⟩ := ih (i + 1) [] (P ++ [t]) (J1 ++ [j0]) T2 U d
          (by simp; omega) (by simp; omega) hT2 List.Pairwise.nil (by simp)
        refine ⟨J2, ?_, by simpa using hl⟩
        rw [he, hsel]
        simp only [Prod.mk.injEq]
        exact ⟨by simp, trivial⟩
    · rw [delSteppedAux_cons_cons]
      have hjbound := hb j (List.mem_cons_self _ _)
      rw [List.pairwise_cons] at hpw
      by_cases hji : j = i
      · subst hji
        rw [if_pos rfl]
        have harr : P ++ (J ++ (t :: T2 ++ U)) = P ++ ((J ++ [t]) ++ (T2 ++ U)) := by
          simp
        rw [harr]
        obtain ⟨J2, he, hl⟩ := ih (j + 1) js P (J ++ [t]) T2 U (d + 1)
          (by omega) (by simp [hJ]) hT2 hpw.2
          (fun x hx => ⟨hpw.1 x hx, by have := (hb x (List.mem_cons_of_mem _ hx)).2; omega⟩)
        refine ⟨J2, ?_, by rw [hl, List.length_cons]; omega⟩
        rw [he]
        have hsel : deleteSel (fun p => decide (p ∈ (j :: js))) j (t :: T2)
            = deleteSel (fun p => decide (p ∈ js)) (j + 1) T2 := by
          have h1 : deleteSel (fun p => decide (p ∈ (j :: js))) j (t :: T2)
              = deleteSel (fun p => decide (p ∈ (j :: js))) (j + 1) T2 := by
            simp [deleteSel]
          rw [h1]
          apply deleteSel_congr
          intro p hp1 _hp2
          rw [decide_eq_decide, List.mem_cons]
          constructor
          · intro h
            rcases h with h | h
            · omega
            · exact h
          · intro h
            exact Or.inr h
        rw [hsel]
        simp only [Prod.mk.injEq]
        exact ⟨trivial, by simp only [List.length_cons]; omega⟩
      · rw [if_neg hji]
        have hjgt : i < j := by omega
        have hnotmem : i ∉ (j :: js) := by
          rw [List.mem_cons]
          push_neg
          constructor
          · omega
          · intro hmem
            have := hpw.1 i hmem
            omega
        have hsel : deleteSel (fun p => decide (p ∈ (j :: js))) i (t :: T2)
            = t :: deleteSel (fun p => decide (p ∈ (j :: js))) (i + 1) T2 := by
          simp [deleteSel, hnotmem]
        rcases J with _ | ⟨j0, J1⟩
        · have hd0 : d = 0 := by simpa using hJ.symm
          subst hd0
          have hswap : listSwap (P ++ ([] ++ (t :: T2 ++ U))) (i - 0) i
              = (P ++ [t]) ++ ([] ++ (T2 ++ U)) := by
            have hii : i - 0 = i := by omega
            rw [hii, listSwap_self]
            simp
          rw [hswap]
          obtain ⟨J2, he, hl⟩ := ih (i + 1) (j :: js) (P ++ [t]) [] T2 U 0
            (by simp; omega) rfl hT2 (List.pairwise_cons.mpr hpw)
            (fun x hx => by
              have h1 := hb x hx
              have h2 : i < x := by
                rcases List.mem_cons.mp hx with h | h
                · omega
                · have := hpw.1 x h; omega
              omega)
          refine ⟨J2, ?_, by simpa using hl⟩
          rw [he, hsel]
          simp only [Prod.mk.injEq]
          exact ⟨by simp, trivial⟩
        · have hd : d = J1.length + 1 := by
            rw [← hJ, List.length_cons]
          have harr : P ++ ((j0 :: J1) ++ (t :: T2 ++ U))
              = P ++ j0 :: (J1 ++ t :: (T2 ++ U)) := by simp
          have hswap : listSwap (P ++ ((j0 :: J1) ++ (t :: T2 ++ U))) (i - d) i
              = (P ++ [t]) ++ ((J1 ++ [j0]) ++ (T2 ++ U)) := by
            rw [harr]
            have e1 : i - d = P.length := by omega
            have e2 : i = P.length + J1.length + 1 := by omega
            rw [e1, e2, listSwap_append]
            simp
          rw [hswap]
          obtain ⟨J2, he, hl⟩ := ih (i + 1) (j :: js) (P ++ [t]) (J1 ++ [j0]) T2 U d
            (by simp; omega) (by simp; omega) hT2 (List.pairwise_cons.mpr hpw)
            (fun x hx => by
              have h1 := hb x hx
              have h2 : i < x := by
                rcases List.mem_cons.mp hx with h | h
                · omega
                · have := hpw.1 x h; omega
              omega)
          refine ⟨J2, ?_, by simpa using hl⟩
          rw [he, hsel]
          simp only [Prod.mk.injEq]
          exact ⟨by simp, trivial⟩

theorem listSwap_comm (l : List α) (i j : Nat) : listSwap l i j = listSwap l j i := by
  by_cases h : i = j
  · subst h; rfl
  · unfold listSwap
    cases ha : l[i]? <;> cases hb : l[j]? <;> try rfl
    exact List.set_comm _ _ _ h

theorem delSteppedRevAux_nil (pending : List Nat) (d : Nat) (e : List α) :
    delSteppedRevAux [] pending d e = (e, d) := rfl

theorem delSteppedRevAux_cons_nil (i : Nat) (is : List Nat) (d : Nat) (e : List α) :
    delSteppedRevAux (i :: is) [] d e
      = delSteppedRevAux is [] d (listSwap e (i + d) i) := rfl

theorem delSteppedRevAux_cons_cons (i : Nat) (is : List Nat) (j : Nat) (js : List Nat)
    (d : Nat) (e : List α) :
    delSteppedRevAux (i :: is) (j :: js) d e
      = if j = i then delSteppedRevAux is js (d + 1) e
        else delSteppedRevAux is (j :: js) d (listSwap e (i + d) i) := rfl

theorem range'_reverse_succ (i n : Nat) :
    (List.range' i (n + 1)).reverse = (i + n) :: (List.range' i n).reverse := by
  rw [List.range'_1_concat, List.reverse_append]
  simp

/-- Invariant of the reverse stepped-deletion walk: the elements are an
untouched prefix `P` (positions below `i`), the unscanned window `T`, the
`d` displaced elements `J`, the survivors `S` collected so far, and the
untouched tail `U`; the walk moves every surviving window element onto the
front of `S` and every selected one into the displaced block. -/
theorem delSteppedRevAux_invariant (i : Nat) (P : List α) (hP : P.length = i) :
    ∀ (n : Nat) (pending : List Nat) (T J S U : List α) (d : Nat),
      J.length = d →
      T.length = n →
      pending.Pairwise (fun a b => a > b) →
      (∀ x ∈ pending, i ≤ x ∧ x < i + n) →
      ∃ J2 : List α,
        delSteppedRevAux (List.range' i n).reverse pending d
            (P ++ (T ++ (J ++ (S ++ U))))
          = (P ++ (J2 ++ (deleteSel (fun p => decide (p ∈ pending)) i T ++ (S ++ U))),
             d + pending.length)
        ∧ J2.length = d + pending.length := by
  intro n
  induction n with
  | zero =>
    intro pending T J S U d hJ hT _hpw hb
    have hTnil : T = [] := List.length_eq_zero.mp hT
    have hpnil : pending = [] := by
      rw [List.eq_nil_iff_forall_not_mem]
      intro x hx
      have := hb x hx
      omega
    subst hTnil; subst hpnil
    refine ⟨J, ?_, by simp [hJ]⟩
    rw [show (List.range' i 0).reverse = [] from rfl, delSteppedRevAux_nil]
    simp [deleteSel]
  | succ n ih =>
    intro pending T J S U d hJ hT hpw hb
    rcases List.eq_nil_or_concat T with hTnil | ⟨T2, t, hTc⟩
    · rw [hTnil] at hT; simp at hT
    subst hTc
    rw [List.concat_eq_append] at *
    have hT2 : T2.length = n := by
      rw [List.length_append, List.length_cons] at hT
      simp at hT
      omega
    rw [range'_reverse_succ]
    have hselapp : ∀ pend2 : List Nat,
        deleteSel (fun p => decide (p ∈ pend2)) i (T2 ++ [t])
          = deleteSel (fun p => decide (p ∈ pend2)) i T2
            ++ deleteSel (fun p => decide (p ∈ pend2)) (i + n) [t] := by
      intro pend2
      rw [deleteSel_append, hT2]
    rcases pending with _ | ⟨j, js⟩
    · -- no pending deletions: swap the survivor toward the back
      rw [delSteppedRevAux_cons_nil]
      have hkeep : deleteSel (fun p => decide (p ∈ ([] : List Nat))) i (T2 ++ [t])
          = deleteSel (fun p => decide (p ∈ ([] : List Nat))) i T2 ++ [t] := by
        rw [hselapp]
        simp [deleteSel]
      rcases List.eq_nil_or_concat J with hJnil | ⟨J1, jl, hJc⟩
      · subst hJnil
        have hd0 : d = 0 := by simpa using hJ.symm
        subst hd0
        have hswap : listSwap (P ++ ((T2 ++ [t]) ++ ([] ++ (S ++ U)))) (i + n + 0) (i + n)
            = P ++ (T2 ++ ([] ++ ((t :: S) ++ U))) := by
          have hii : i + n + 0 = i + n := by omega
          rw [hii, listSwap_self]
          simp
        rw [hswap]
        obtain ⟨J2, he, hl⟩ := ih [] T2 [] (t :: S) U 0 rfl hT2 List.Pairwise.nil (by simp)
        refine ⟨J2, ?_, by simpa using hl⟩
        rw [he, hkeep]
        simp only [Prod.mk.injEq]
        exact ⟨by simp, trivial⟩
      · subst hJc
        rw [List.concat_eq_append] at *
        have hd : d = J1.length + 1 := by
          rw [← hJ]
          simp
        have hswap : listSwap (P ++ ((T2 ++ [t]) ++ ((J1 ++ [jl]) ++ (S ++ U))))
              (i + n + d) (i + n)
            = P ++ (T2 ++ ((jl :: J1) ++ ((t :: S) ++ U))) := by
          rw [listSwap_comm]
          have harr : P ++ ((T2 ++ [t]) ++ ((J1 ++ [jl]) ++ (S ++ U)))
              = (P ++ T2) ++ t :: (J1 ++ jl :: (S ++ U)) := by simp
          have e1 : i + n = (P ++ T2).length := by
            rw [List.length_append, hP, hT2]
          have e2 : i + n + d = (P ++ T2).length + J1.length + 1 := by
            rw [List.length_append, hP, hT2]
            omega
          rw [harr, e2, e1, listSwap_append]
          simp
        rw [hswap]
        obtain ⟨J2, he, hl⟩ := ih [] T2 (jl :: J1) (t :: S) U d
          (by rw [List.length_cons]; omega) hT2 List.Pairwise.nil (by simp)
        refine ⟨J2, ?_, by simpa using hl⟩
        rw [he, hkeep]
        simp only [Prod.mk.injEq]
        exact ⟨by simp, trivial⟩
    · rw [delSteppedRevAux_cons_cons]
      have hjbound := hb j (List.mem_cons_self _ _)
      rw [List.pairwise_cons] at hpw
      by_cases hji : j = i + n
      · subst hji
        rw [if_pos rfl]
        have harr : P ++ ((T2 ++ [t]) ++ (J ++ (S ++ U)))
            = P ++ (T2 ++ ((t :: J) ++ (S ++ U))) := by simp
        rw [harr]
        obtain ⟨J2, he, hl⟩ := ih js T2 (t :: J) S U (d + 1)
          (by rw [List.length_cons]; omega) hT2 hpw.2
          (fun x hx => ⟨(hb x (List.mem_cons_of_mem _ hx)).1, by
            have := hpw.1 x hx; omega⟩)
        refine ⟨J2, ?_, by rw [hl, List.length_cons]; omega⟩
        rw [he]
        have hkeep : deleteSel (fun p => decide (p ∈ ((i + n) :: js))) i (T2 ++ [t])
            = deleteSel (fun p => decide (p ∈ js)) i T2 := by
          rw [hselapp]
          have h2 : deleteSel (fun p => decide (p ∈ ((i + n) :: js))) (i + n) [t]
              = ([] : List α) := by
            simp [deleteSel]
          rw [h2, List.append_nil]
          apply deleteSel_congr
          intro p hp1 hp2
          rw [decide_eq_decide, List.mem_cons]
          rw [hT2] at hp2
          constructor
          · intro h
            rcases h with h | h
            · omega
            · exact h
          · intro h
            exact Or.inr h
        rw [hkeep]
        simp only [Prod.mk.injEq]
        exact ⟨trivial, by simp only [List.length_cons]; omega⟩
      · rw [if_neg hji]
        have hnotmem : (i + n) ∉ (j :: js) := by
          rw [List.mem_cons]
          push_neg
          constructor
          · omega
          · intro hmem
            have h1 := hpw.1 _ hmem
            have h2 := (hb _ (List.mem_cons_of_mem _ hmem)).2
            omega
        have hbound2 : ∀ x ∈ (j :: js), i ≤ x ∧ x < i + n := by
          intro x hx
          have h1 := hb x hx
          have h2 : x ≠ i + n := fun he => hnotmem (he ▸ hx)
          omega
        have hkeep : deleteSel (fun p => decide (p ∈ (j :: js))) i (T2 ++ [t])
            = deleteSel (fun p => decide (p ∈ (j :: js))) i T2 ++ [t] := by
          rw [hselapp]
          simp [deleteSel, hnotmem]
        rcases List.eq_nil_or_concat J with hJnil | ⟨J1, jl, hJc⟩
        · subst hJnil
          have hd0 : d = 0 := by simpa using hJ.symm
          subst hd0
          have hswap : listSwap (P ++ ((T2 ++ [t]) ++ ([] ++ (S ++ U)))) (i + n + 0) (i + n)
              = P ++ (T2 ++ ([] ++ ((t :: S) ++ U))) := by
            have hii : i + n + 0 = i + n := by omega
            rw [hii, listSwap_self]
            simp
          rw [hswap]
          obtain ⟨J2, he, hl⟩ := ih (j :: js) T2 [] (t :: S) U 0 rfl hT2
            (List.pairwise_cons.mpr hpw) hbound2
          refine ⟨J2, ?_, by simpa using hl⟩
          rw [he, hkeep]
          simp only [Prod.mk.injEq]
          exact ⟨by simp, trivial⟩
        · subst hJc
          rw [List.concat_eq_append] at *
          have hd : d = J1.length + 1 := by
            rw [← hJ]
            simp
          have hswap : listSwap (P ++ ((T2 ++ [t]) ++ ((J1 ++ [jl]) ++ (S ++ U))))
                (i + n + d) (i + n)
              = P ++ (T2 ++ ((jl :: J1) ++ ((t :: S) ++ U))) := by
            rw [listSwap_comm]
            have harr : P ++ ((T2 ++ [t]) ++ ((J1 ++ [jl]) ++ (S ++ U)))
                = (P ++ T2) ++ t :: (J1 ++ jl :: (S ++ U)) := by simp
            have e1 : i + n = (P ++ T2).length := by
              rw [List.length_append, hP, hT2]
            have e2 : i + n + d = (P ++ T2).length + J1.length + 1 := by
              rw [List.length_append, hP, hT2]
              omega
            rw [harr, e2, e1, listSwap_append]
            simp
          rw [hswap]
          obtain ⟨J2, he, hl⟩ := ih (j :: js) T2 (jl :: J1) (t :: S) U d
            (by rw [List.length_cons]; omega) hT2
            (List.pairwise_cons.mpr hpw) hbound2
          refine ⟨J2, ?_, by simpa using hl⟩
          rw [he, hkeep]
          simp only [Prod.mk.injEq]
          exact ⟨by simp, trivial⟩

/-! ## Claim theorem: stepped slice deletion (C1) -/

theorem steppedCount_le (start stop step : Nat) (h1 : start < stop) (h3 : 1 ≤ step) :
    steppedCount start stop step ≤ stop - start := by
  have hnd : (steppedIndexes start stop step).Nodup :=
    (steppedIndexes_pairwise_lt h3).imp (fun h => Nat.ne_of_lt h)
  have hb : ∀ x ∈ steppedIndexes start stop step, start ≤ x ∧ x < start + (stop - start) := by
    intro x hx
    obtain ⟨k, hk, he⟩ := mem_steppedIndexes.mp hx
    have := steppedIndexes_bound h1 hk
    omega
  have := nodup_length_le_of_bounds start (stop - start) hnd hb
  rw [length_steppedIndexes] at this
  exact this

/-- C1: stepped slice deletion (forward and reverse) removes exactly the
step-selected positions of the resolved range, keeps every other element
in its original relative order, and shrinks the list by the slice length
`ceil((stop - start) / step)`. -/
theorem del_stepped_slice_spec (l : List α) (start stop step : Nat)
    (h1 : start < stop) (h2 : stop ≤ l.length) (h3 : 1 ≤ step) :
    _del_stepped_slice l start stop step
      = deleteSel (fun p => decide (p ∈ steppedIndexes start stop step)) 0 l
    ∧ (_del_stepped_slice l start stop step).length
        = l.length - (stop - start + step - 1) / step
    ∧ _del_stepped_slice_reverse l start stop step
      = deleteSel (fun p => decide (p ∈ steppedIndexesRev start stop step)) 0 l
    ∧ (_del_stepped_slice_reverse l start stop step).length
        = l.length - (stop - start + step - 1) / step := by
  have hcc : (stop - start + step - 1) / step = steppedCount start stop step := by
    rw [steppedCount, if_pos h1]
    exact (ceil_div_eq (stop - start) step (by omega) h3).symm
  have hcle := steppedCount_le start stop step h1 h3
  -- decompose l into prefix, window, suffix
  have hPlen : (l.take start).length = start := by
    rw [List.length_take]
    omega
  have hTlen : ((l.drop start).take (stop - start)).length = stop - start := by
    rw [List.length_take, List.length_drop]
    omega
  have hUeq : (l.drop start).drop (stop - start) = l.drop stop := by
    rw [List.drop_drop]
    congr 1
    omega
  have hldecomp : l = l.take start
      ++ ((l.drop start).take (stop - start) ++ l.drop stop) := by
    conv_lhs => rw [← List.take_append_drop start l]
    congr 1
    conv_lhs => rw [← List.take_append_drop (stop - start) (l.drop start)]
    rw [hUeq]
  -- claim-side form shared by both directions
  have hclaim : ∀ pending : List Nat, (∀ x ∈ pending, start ≤ x ∧ x < stop) →
      deleteSel (fun p => decide (p ∈ pending)) 0 l
        = l.take start
          ++ (deleteSel (fun p => decide (p ∈ pending)) start
                ((l.drop start).take (stop - start))
              ++ l.drop stop) := by
    intro pending hbp
    conv_lhs => rw [hldecomp]
    rw [deleteSel_append]
    rw [deleteSel_of_not_sel (l.take start) 0 (fun p hp1 hp2 => by
      rw [hPlen] at hp2
      rw [decide_eq_false_iff_not]
      intro hmem
      have := hbp p hmem
      omega)]
    rw [deleteSel_append]
    rw [hPlen, hTlen]
    rw [deleteSel_of_not_sel (l.drop stop) (0 + start + (stop - start))
      (fun p hp1 hp2 => by
        rw [decide_eq_false_iff_not]
        intro hmem
        have := hbp p hmem
        omega)]
    have e0 : (0 : Nat) + start = start := by omega
    rw [e0]
  have hbF : ∀ x ∈ steppedIndexes start stop step, start ≤ x ∧ x < stop := by
    intro x hx
    obtain ⟨k, hk, he⟩ := mem_steppedIndexes.mp hx
    have := steppedIndexes_bound h1 hk
    omega
  have hbR : ∀ x ∈ steppedIndexesRev start stop step, start ≤ x ∧ x < stop := by
    intro x hx
    obtain ⟨k, hk, he⟩ := mem_steppedIndexesRev.mp hx
    have := steppedIndexes_bound h1 hk
    omega
  have hklF : (deleteSel (fun p => decide (p ∈ steppedIndexes start stop step)) start
      ((l.drop start).take (stop - start))).length
        = (stop - start) - steppedCount start stop step := by
    rw [deleteSel_mem_length _ start (steppedIndexes start stop step)
      ((steppedIndexes_pairwise_lt h3).imp (fun h => Nat.ne_of_lt h))
      (fun x hx => by
        rw [hTlen]
        have := hbF x hx
        omega)]
    rw [length_steppedIndexes, hTlen]
  have hklR : (deleteSel (fun p => decide (p ∈ steppedIndexesRev start stop step)) start
      ((l.drop start).take (stop - start))).length
        = (stop - start) - steppedCount start stop step := by
    rw [deleteSel_mem_length _ start (steppedIndexesRev start stop step)
      ((steppedIndexesRev_pairwise_gt h1 h3).imp (fun h => Nat.ne_of_gt h))
      (fun x hx => by
        rw [hTlen]
        have := hbR x hx
        omega)]
    rw [length_steppedIndexesRev, hTlen]
  -- forward direction
  have hF : _del_stepped_slice l start stop step
      = l.take start
        ++ (deleteSel (fun p => decide (p ∈ steppedIndexes start stop step)) start
              ((l.drop start).take (stop - start))
            ++ l.drop stop) := by
    obtain ⟨J2, he, hl⟩ := delSteppedAux_invariant (stop - start) start
      (steppedIndexes start stop step) (l.take start) []
      ((l.drop start).take (stop - start)) (l.drop stop) 0
      (by rw [hPlen]; omega) rfl hTlen (steppedIndexes_pairwise_lt h3)
      (fun x hx => by have := hbF x hx; omega)
    have hin : l.take start ++ ([] ++ ((l.drop start).take (stop - start) ++ l.drop stop))
        = l := by
      rw [List.nil_append]
      exact hldecomp.symm
    rw [hin] at he
    rw [length_steppedIndexes] at he hl
    simp only [_del_stepped_slice, he]
    rw [drainRange]
    have hfrontlen : (l.take start
        ++ deleteSel (fun p => decide (p ∈ steppedIndexes start stop step)) start
            ((l.drop start).take (stop - start))).length
          = stop - (0 + steppedCount start stop step) := by
      rw [List.length_append, hPlen, hklF]
      omega
    have htake : (l.take start
          ++ (deleteSel (fun p => decide (p ∈ steppedIndexes start stop step)) start
                ((l.drop start).take (stop - start)) ++ (J2 ++ l.drop stop))).take
            (stop - (0 + steppedCount start stop step))
        = l.take start
          ++ deleteSel (fun p => decide (p ∈ steppedIndexes start stop step)) start
              ((l.drop start).take (stop - start)) := by
      rw [← List.append_assoc]
      exact List.take_left' hfrontlen
    have hmidlen : ((l.take start
          ++ deleteSel (fun p => decide (p ∈ steppedIndexes start stop step)) start
              ((l.drop start).take (stop - start))) ++ J2).length = stop := by
      rw [List.length_append, List.length_append, hPlen, hklF, hl]
      omega
    have hdrop : (l.take start
          ++ (deleteSel (fun p => decide (p ∈ steppedIndexes start stop step)) start
                ((l.drop start).take (stop - start)) ++ (J2 ++ l.drop stop))).drop stop
        = l.drop stop := by
      have harr2 : l.take start
          ++ (deleteSel (fun p => decide (p ∈ steppedIndexes start stop step)) start
              ((l.drop start).take (stop - start)) ++ (J2 ++ l.drop stop))
          = ((l.take start
              ++ deleteSel (fun p => decide (p ∈ steppedIndexes start stop step)) start
                  ((l.drop start).take (stop - start))) ++ J2) ++ l.drop stop := by
        simp
      rw [harr2]
      exact List.drop_left' hmidlen
    rw [htake, hdrop]
    simp
  -- reverse direction
  have hR : _del_stepped_slice_reverse l start stop step
      = l.take start
        ++ (deleteSel (fun p => decide (p ∈ steppedIndexesRev start stop step)) start
              ((l.drop start).take (stop - start))
            ++ l.drop stop) := by
    obtain ⟨J2, he, hl⟩ := delSteppedRevAux_invariant start (l.take start) hPlen
      (stop - start) (steppedIndexesRev start stop step)
      ((l.drop start).take (stop - start)) [] [] (l.drop stop) 0
      rfl hTlen (steppedIndexesRev_pairwise_gt h1 h3)
      (fun x hx => by have := hbR x hx; omega)
    have hin : l.take start
        ++ (((l.drop start).take (stop - start)) ++ ([] ++ ([] ++ l.drop stop)))
        = l := by
      simp only [List.nil_append]
      exact hldecomp.symm
    rw [hin] at he
    simp only [List.nil_append] at he
    rw [length_steppedIndexesRev] at he hl
    simp only [_del_stepped_slice_reverse, he]
    rw [drainRange]
    have htake : (l.take start
          ++ (J2 ++ (deleteSel (fun p => decide (p ∈ steppedIndexesRev start stop step))
                start ((l.drop start).take (stop - start)) ++ l.drop stop))).take start
        = l.take start := by
      exact List.take_left' hPlen
    have hmidlen : (l.take start ++ J2).length
        = start + (0 + steppedCount start stop step) := by
      rw [List.length_append, hPlen, hl]
    have hdrop : (l.take start
          ++ (J2 ++ (deleteSel (fun p => decide (p ∈ steppedIndexesRev start stop step))
                start ((l.drop start).take (stop - start)) ++ l.drop stop))).drop
            (start + (0 + steppedCount start stop step))
        = deleteSel (fun p => decide (p ∈ steppedIndexesRev start stop step))
            start ((l.drop start).take (stop - start)) ++ l.drop stop := by
      have harr2 : l.take start
          ++ (J2 ++ (deleteSel (fun p => decide (p ∈ steppedIndexesRev start stop step))
              start ((l.drop start).take (stop - start)) ++ l.drop stop))
          = (l.take start ++ J2)
            ++ (deleteSel (fun p => decide (p ∈ steppedIndexesRev start stop step))
                start ((l.drop start).take (stop - start)) ++ l.drop stop) := by
        simp
      rw [harr2]
      exact List.drop_left' hmidlen
    rw [htake, hdrop]
  refine ⟨?_, ?_, ?_, ?_⟩
  · rw [hF, hclaim _ hbF]
  · rw [hF, List.length_append, List.length_append, hPlen, hklF, List.length_drop, hcc]
    omega
  · rw [hR, hclaim _ hbR]
  · rw [hR, List.length_append, List.length_append, hPlen, hklR, List.length_drop, hcc]
    omega


/-- Witness for C1 at `l = [0..6]`, slice `(1, 6, 2)`. -/
theorem del_stepped_slice_spec_witness :
    (1 < 6 ∧ 6 ≤ ([0, 1, 2, 3, 4, 5, 6] : List Nat).length ∧ 1 ≤ 2)
    ∧ _del_stepped_slice ([0, 1, 2, 3, 4, 5, 6] : List Nat) 1 6 2
        = deleteSel (fun p => decide (p ∈ steppedIndexes 1 6 2)) 0 [0, 1, 2, 3, 4, 5, 6]
    ∧ (_del_stepped_slice_reverse ([0, 1, 2, 3, 4, 5, 6] : List Nat) 1 6 2).length
        = ([0, 1, 2, 3, 4, 5, 6] : List Nat).length - (6 - 1 + 2 - 1) / 2 := by
  have h := del_stepped_slice_spec ([0, 1, 2, 3, 4, 5, 6] : List Nat) 1 6 2
    (by decide) (by decide) (by decide)
  exact ⟨⟨by decide, by decide, by decide⟩, h.1, h.2.2.2⟩

/-! ## Sort engine lemmas -/

theorem buildKeys_nil (f : α → KeyCall α) (ph : List α) :
    buildKeys f [] ph = (ph, .ok []) := rfl

theorem buildKeys_cons (f : α → KeyCall α) (x : α) (xs ph : List α) :
    buildKeys f (x :: xs) ph
      = match (f x).result with
        | .error e => (ph ++ (f x).appended, .error e)
        | .ok k =>
          match buildKeys f xs (ph ++ (f x).appended) with
          | (ph3, .error e) => (ph3, .error e)
          | (ph3, .ok ks) => (ph3, .ok (k :: ks)) := rfl

theorem buildKeys_ok (f : α → KeyCall α) :
    ∀ (xs ph : List α), (∀ x ∈ xs, ∃ k, (f x).result = .ok k) →
      ∃ ks : List α,
        buildKeys f xs ph
          = (ph ++ (xs.map (fun x => (f x).appended)).flatten, .ok ks)
        ∧ ks.length = xs.length := by
  intro xs
  induction xs with
  | nil =>
    intro ph _
    exact ⟨[], by simp [buildKeys_nil], rfl⟩
  | cons x xs ih =>
    intro ph hok
    obtain ⟨k, hk⟩ := hok x (List.mem_cons_self _ _)
    obtain ⟨ks, hks, hkl⟩ := ih (ph ++ (f x).appended)
      (fun y hy => hok y (List.mem_cons_of_mem _ hy))
    refine ⟨k :: ks, ?_, by simp [hkl]⟩
    rw [buildKeys_cons, hk, hks]
    simp

theorem buildKeys_ph (f : α → KeyCall α) :
    ∀ (xs ph : List α), (∀ x ∈ xs, (f x).appended = []) →
      (buildKeys f xs ph).1 = ph := by
  intro xs
  induction xs with
  | nil => intro ph _; rfl
  | cons x xs ih =>
    intro ph happ
    have h0 : (f x).appended = [] := happ x (List.mem_cons_self _ _)
    have hrest : ∀ y ∈ xs, (f y).appended = [] :=
      fun y hy => happ y (List.mem_cons_of_mem _ hy)
    rw [buildKeys_cons, h0, List.append_nil]
    rcases hr : (f x).result with e | k
    · rfl
    · rcases hb : buildKeys f xs ph with ⟨ph3, r⟩
      have hph3 : ph3 = ph := by
        have := ih ph hrest
        rw [hb] at this
        exact this
      cases r <;> simp [hph3]

theorem buildKeys_snd_congr (f g : α → KeyCall α) :
    ∀ (xs : List α), (∀ x ∈ xs, (f x).result = (g x).result) →
      ∀ (ph ph2 : List α), (buildKeys f xs ph).2 = (buildKeys g xs ph2).2 := by
  intro xs
  induction xs with
  | nil => intro _ ph ph2; rfl
  | cons x xs ih =>
    intro hres ph ph2
    have h0 : (f x).result = (g x).result := hres x (List.mem_cons_self _ _)
    have hrest : ∀ y ∈ xs, (f y).result = (g y).result :=
      fun y hy => hres y (List.mem_cons_of_mem _ hy)
    rw [buildKeys_cons, buildKeys_cons, h0]
    rcases hr : (g x).result with e | k
    · rfl
    · rcases hbf : buildKeys f xs (ph ++ (f x).appended) with ⟨pf, rf⟩
      rcases hbg : buildKeys g xs (ph2 ++ (g x).appended) with ⟨pg, rg⟩
      have hre : rf = rg := by
        have := ih hrest (ph ++ (f x).appended) (ph2 ++ (g x).appended)
        rw [hbf, hbg] at this
        exact this
      subst hre
      cases rf <;> rfl

theorem partitionGo_nil [Inhabited α] (lt : α → α → Except PyErr Bool)
    (last store : Nat) (keys values : List α) :
    partitionGo lt last [] store keys values = .ok (store, keys, values) := rfl

theorem partitionGo_ok [Inhabited α] (lt : α → α → Except PyErr Bool)
    (hlt : ∀ a b, ∃ r, lt a b = .ok r) (last : Nat) :
    ∀ (idxs : List Nat) (store : Nat) (keys values : List α),
      ∃ store2 keys2 values2,
        partitionGo lt last idxs store keys values = .ok (store2, keys2, values2)
        ∧ keys2.length = keys.length ∧ values2.length = values.length
        ∧ keys2.Perm keys ∧ values2.Perm values
        ∧ store2 ≤ store + idxs.length := by
  intro idxs
  induction idxs with
  | nil =>
    intro store keys values
    exact ⟨store, keys, values, rfl, rfl, rfl, List.Perm.refl _, List.Perm.refl _,
      by simp⟩
  | cons i is ih =>
    intro store keys values
    obtain ⟨r, hr⟩ := hlt (keys.getD i default) (keys.getD last default)
    cases r
    · obtain ⟨s2, k2, v2, he, hk, hv, hpk, hpv, hs⟩ := ih store keys values
      refine ⟨s2, k2, v2, ?_, hk, hv, hpk, hpv, by
        rw [List.length_cons]
        omega⟩
      have hred : partitionGo lt last (i :: is) store keys values
          = partitionGo lt last is store keys values := by
        show (lt (keys.getD i default) (keys.getD last default)).bind _
          = partitionGo lt last is store keys values
        rw [hr]
        rfl
      rw [hred, he]
    · obtain ⟨s2, k2, v2, he, hk, hv, hpk, hpv, hs⟩ :=
        ih (store + 1) (listSwap keys i store) (listSwap values i store)
      refine ⟨s2, k2, v2, ?_, ?_, ?_, ?_, ?_, by
        rw [List.length_cons]
        omega⟩
      · have hred : partitionGo lt last (i :: is) store keys values
            = partitionGo lt last is (store + 1) (listSwap keys i store)
                (listSwap values i store) := by
          show (lt (keys.getD i default) (keys.getD last default)).bind _
            = partitionGo lt last is (store + 1) (listSwap keys i store)
                (listSwap values i store)
          rw [hr]
          rfl
        rw [hred, he]
      · rw [hk, listSwap_length]
      · rw [hv, listSwap_length]
      · exact hpk.trans (listSwap_perm _ _ _)
      · exact hpv.trans (listSwap_perm _ _ _)

theorem partition_eq [Inhabited α] (lt : α → α → Except PyErr Bool)
    (keys values : List α) :
    partition lt keys values
      = match partitionGo lt (values.length - 1) (List.range (values.length - 1)) 0
          (listSwap keys (values.length / 2) (values.length - 1))
          (listSwap values (values.length / 2) (values.length - 1)) with
        | .error e => .error e
        | .ok (store, keys2, values2) =>
          .ok (store, listSwap keys2 store (values.length - 1),
               listSwap values2 store (values.length - 1)) := rfl

theorem partition_ok [Inhabited α] (lt : α → α → Except PyErr Bool)
    (hlt : ∀ a b, ∃ r, lt a b = .ok r) (keys values : List α) :
    ∃ p ks vs,
      partition lt keys values = .ok (p, ks, vs)
      ∧ ks.length = keys.length ∧ vs.length = values.length
      ∧ ks.Perm keys ∧ vs.Perm values
      ∧ p ≤ values.length - 1 := by
  obtain ⟨s2, k2, v2, he, hk, hv, hpk, hpv, hs⟩ := partitionGo_ok lt hlt
    (values.length - 1) (List.range (values.length - 1)) 0
    (listSwap keys (values.length / 2) (values.length - 1))
    (listSwap values (values.length / 2) (values.length - 1))
  refine ⟨s2, listSwap k2 s2 (values.length - 1), listSwap v2 s2 (values.length - 1),
    ?_, ?_, ?_, ?_, ?_, ?_⟩
  · rw [partition_eq, he]
  · rw [listSwap_length, hk, listSwap_length]
  · rw [listSwap_length, hv, listSwap_length]
  · exact (listSwap_perm _ _ _).trans (hpk.trans (listSwap_perm _ _ _))
  · exact (listSwap_perm _ _ _).trans (hpv.trans (listSwap_perm _ _ _))
  · rw [List.length_range] at hs
    omega

theorem quicksortFuel_succ [Inhabited α] (lt : α → α → Except PyErr Bool)
    (fuel : Nat) (keys values : List α) :
    quicksortFuel lt (fuel + 1) keys values
      = if 2 ≤ values.length then do
          let (p, ks, vs) ← partition lt keys values
          let (ksl, vsl) ← quicksortFuel lt fuel (ks.take p) (vs.take p)
          let (ksr, vsr) ← quicksortFuel lt fuel (ks.drop (p + 1)) (vs.drop (p + 1))
          .ok (ksl ++ ks.getD p default :: ksr, vsl ++ vs.getD p default :: vsr)
        else .ok (keys, values) := rfl

theorem quicksortFuel_ok [Inhabited α] (lt : α → α → Except PyErr Bool)
    (hlt : ∀ a b, ∃ r, lt a b = .ok r) :
    ∀ (fuel : Nat) (keys values : List α),
      keys.length = values.length → values.length ≤ fuel →
      ∃ ks vs,
        quicksortFuel lt fuel keys values = .ok (ks, vs)
        ∧ ks.length = keys.length ∧ vs.length = values.length
        ∧ vs.Perm values := by
  intro fuel
  induction fuel with
  | zero =>
    intro keys values _ _
    exact ⟨keys, values, rfl, rfl, rfl, List.Perm.refl _⟩
  | succ fuel ih =>
    intro keys values hkv hfuel
    by_cases h2 : 2 ≤ values.length
    · obtain ⟨p, ks0, vs0, hp, hk0, hv0, hpk0, hpv0, hple⟩ := partition_ok lt hlt keys values
      have hplt : p < vs0.length := by omega
      have hkl0 : ks0.length = vs0.length := by omega
      obtain ⟨ksl, vsl, hql, hkl, hvl, hpl⟩ := ih (ks0.take p) (vs0.take p)
        (by rw [List.length_take, List.length_take]; omega)
        (by rw [List.length_take]; omega)
      obtain ⟨ksr, vsr, hqr, hkr, hvr, hpr⟩ := ih (ks0.drop (p + 1)) (vs0.drop (p + 1))
        (by rw [List.length_drop, List.length_drop]; omega)
        (by rw [List.length_drop]; omega)
      refine ⟨ksl ++ ks0.getD p default :: ksr, vsl ++ vs0.getD p default :: vsr, ?_, ?_, ?_, ?_⟩
      · rw [quicksortFuel_succ, if_pos h2, hp]
        show (do
            let (ksl, vsl) ← quicksortFuel lt fuel (ks0.take p) (vs0.take p)
            let (ksr, vsr) ← quicksortFuel lt fuel (ks0.drop (p + 1)) (vs0.drop (p + 1))
            Except.ok (ksl ++ ks0.getD p default :: ksr, vsl ++ vs0.getD p default :: vsr)
          : Except PyErr (List α × List α)) = _
        rw [hql]
        show (do
            let (ksr, vsr) ← quicksortFuel lt fuel (ks0.drop (p + 1)) (vs0.drop (p + 1))
            Except.ok (ksl ++ ks0.getD p default :: ksr, vsl ++ vs0.getD p default :: vsr)
          : Except PyErr (List α × List α)) = _
        rw [hqr]
        rfl
      · rw [List.length_append, List.length_cons, hkl, hkr]
        rw [List.length_take, List.length_drop]
        omega
      · rw [List.length_append, List.length_cons, hvl, hvr]
        rw [List.length_take, List.length_drop]
        omega
      · have hvd : vs0.getD p default :: vs0.drop (p + 1) = vs0.drop p := by
          rw [List.getD_eq_getElem vs0 default hplt]
          exact List.getElem_cons_drop vs0 p hplt
        have hchain : (vsl ++ vs0.getD p default :: vsr).Perm
            (vs0.take p ++ vs0.getD p default :: vs0.drop (p + 1)) := by
          apply List.Perm.append hpl
          exact List.Perm.cons _ hpr
        apply hchain.trans
        rw [hvd, List.take_append_drop]
        exact hpv0
    · refine ⟨keys, values, ?_, rfl, rfl, List.Perm.refl _⟩
      rw [quicksortFuel_succ, if_neg h2]

/-! ## Claim theorems: sort engine (C4, C8, C10) -/

/-- C10: for every list, key function, and comparator whose invocations
all succeed and do not mutate the container, `sort` (either direction)
succeeds and leaves the container holding exactly a permutation of its
original elements. -/
theorem sort_perm_spec [Inhabited α] (l : List α) (key : Option (α → KeyCall α))
    (lt : α → α → Except PyErr Bool) (rev : Bool)
    (hkey : ∀ x ∈ l, (keyCallOf key x).appended = [] ∧ ∃ k, (keyCallOf key x).result = .ok k)
    (hlt : ∀ a b, ∃ r, lt a b = .ok r) :
    (sort l key lt rev).2 = .ok () ∧ (sort l key lt rev).1.Perm l := by
  obtain ⟨ks, hbk, hkl⟩ := buildKeys_ok (keyCallOf key) l [] (fun x hx => (hkey x hx).2)
  have happ : (l.map (fun x => (keyCallOf key x).appended)).flatten = [] := by
    rw [List.flatten_eq_nil_iff]
    intro ys hys
    obtain ⟨x, hx, rfl⟩ := List.mem_map.mp hys
    exact (hkey x hx).1
  rw [happ] at hbk
  simp only [List.append_nil] at hbk
  obtain ⟨ks2, vs, hq, _, _, hperm⟩ := quicksortFuel_ok lt hlt l.length ks l hkl
    (Nat.le_refl _)
  have hsort : sort l key lt rev = ((if rev then vs.reverse else vs), .ok ()) := by
    simp only [sort, hbk, hq]
    rfl
  rw [hsort]
  refine ⟨rfl, ?_⟩
  cases rev
  · exact hperm
  · exact (List.reverse_perm vs).trans hperm

/-- Witness for C10 at `l = [3, 1, 2]`, no key function, `natLt`. -/
theorem sort_perm_spec_witness :
    (sort ([3, 1, 2] : List Nat) none natLt false).2 = .ok ()
    ∧ (sort ([3, 1, 2] : List Nat) none natLt false).1.Perm [3, 1, 2] := by
  exact sort_perm_spec ([3, 1, 2] : List Nat) none natLt false
    (fun x _ => ⟨rfl, ⟨x, rfl⟩⟩) (fun a b => ⟨decide (a < b), rfl⟩)

/-- C4: if every key-function invocation succeeds and the comparator never
fails, `sort` raises the "list modified during sort" `ValueError` exactly
when the key function appended something to the placeholder; the
container still receives the fully sorted elements (identical to a run
whose key function performs no appends, which succeeds). -/
theorem sort_modified_during_sort_spec [Inhabited α] (l : List α)
    (key : Option (α → KeyCall α)) (lt : α → α → Except PyErr Bool) (rev : Bool)
    (hkey : ∀ x ∈ l, ∃ k, (keyCallOf key x).result = .ok k)
    (hlt : ∀ a b, ∃ r, lt a b = .ok r) :
    ((sort l key lt rev).2 = .error (.valueError "list modified during sort")
        ↔ (l.map (fun x => (keyCallOf key x).appended)).flatten ≠ [])
    ∧ (sort l key lt rev).1
        = (sort l (some (fun x => ⟨[], (keyCallOf key x).result⟩)) lt rev).1
    ∧ (sort l (some (fun x => ⟨[], (keyCallOf key x).result⟩)) lt rev).2 = .ok () := by
  obtain ⟨ks, hbk, hkl⟩ := buildKeys_ok (keyCallOf key) l [] hkey
  simp only [List.nil_append] at hbk
  have hgok : ∀ x ∈ l, ∃ k,
      (keyCallOf (some (fun x => (⟨[], (keyCallOf key x).result⟩ : KeyCall α))) x).result
        = .ok k := hkey
  obtain ⟨ks2, hbk2, hkl2⟩ := buildKeys_ok
    (keyCallOf (some (fun x => (⟨[], (keyCallOf key x).result⟩ : KeyCall α)))) l [] hgok
  have happ2 : (l.map (fun x =>
      (keyCallOf (some (fun x => (⟨[], (keyCallOf key x).result⟩ : KeyCall α))) x).appended)).flatten
        = [] := by
    rw [List.flatten_eq_nil_iff]
    intro ys hys
    obtain ⟨x, hx, rfl⟩ := List.mem_map.mp hys
    rfl
  rw [happ2] at hbk2
  simp only [List.append_nil, List.nil_append] at hbk2
  have hks : ks2 = ks := by
    have hc := buildKeys_snd_congr
      (keyCallOf (some (fun x => (⟨[], (keyCallOf key x).result⟩ : KeyCall α))))
      (keyCallOf key) l (fun x _ => rfl) [] []
    rw [hbk, hbk2] at hc
    simpa using hc
  subst hks
  obtain ⟨kq, vs, hq, _, _, hperm⟩ := quicksortFuel_ok lt hlt l.length ks2 l hkl
    (Nat.le_refl _)
  have hsort2 : sort l (some (fun x => (⟨[], (keyCallOf key x).result⟩ : KeyCall α))) lt rev
      = ((if rev then vs.reverse else vs), .ok ()) := by
    simp only [sort, hbk2, hq]
    rfl
  by_cases hap : (l.map (fun x => (keyCallOf key x).appended)).flatten = []
  · have hbk' : buildKeys (keyCallOf key) l [] = ([], .ok ks2) := by
      rw [hbk, hap]
    have hsort : sort l key lt rev = ((if rev then vs.reverse else vs), .ok ()) := by
      simp only [sort, hbk', hq]
      rfl
    rw [hsort, hsort2]
    refine ⟨?_, rfl, rfl⟩
    constructor
    · intro h
      exact absurd h (fun h2 => Except.noConfusion h2)
    · intro h
      exact absurd hap h
  · have hne : ((l.map (fun x => (keyCallOf key x).appended)).flatten).isEmpty = false := by
      rw [← Bool.not_eq_true, List.isEmpty_iff]
      exact hap
    have hsort : sort l key lt rev
        = ((if rev then vs.reverse else vs),
           .error (.valueError "list modified during sort")) := by
      simp only [sort, hbk, hq, hne]
      rfl
    rw [hsort, hsort2]
    exact ⟨⟨fun _ => hap, fun _ => rfl⟩, rfl, rfl⟩

/-- Witness for C4 at `l = [2, 1]` with a key function that appends `7`
on every invocation. -/
theorem sort_modified_during_sort_spec_witness :
    (sort ([2, 1] : List Nat) (some (fun x => ⟨[7], Except.ok x⟩)) natLt false).2
      = .error (.valueError "list modified during sort") := by
  have h := sort_modified_during_sort_spec ([2, 1] : List Nat)
    (some (fun x => ⟨[7], Except.ok x⟩)) natLt false
    (fun x _ => ⟨x, rfl⟩) (fun a b => ⟨decide (a < b), rfl⟩)
  exact h.1.mpr (by decide)

/-- C8 counterexample: with a key function that appends `99` and then
fails, `sort` propagates the error but the container is left holding
`[99]`, not empty as the claim states. -/
theorem sort_key_failure_counterexample :
    sort [5, 6] (some c8KeyFun) natLt false = ([99], .error (.valueError "boom"))
    ∧ ([99] : List Nat) ≠ [] := by
  constructor
  · rfl
  · decide

/-- C8 (amended): if the key function fails while the key table is being
built, `sort` aborts and propagates that error without reattaching the
original elements; the container is left holding exactly what the key
function appended to the placeholder — in particular it is empty whenever
the key function appended nothing. -/
theorem sort_key_failure_spec [Inhabited α] (l : List α)
    (key : Option (α → KeyCall α)) (lt : α → α → Except PyErr Bool) (rev : Bool)
    (ph : List α) (e : PyErr)
    (hb : buildKeys (keyCallOf key) l [] = (ph, .error e)) :
    sort l key lt rev = (ph, .error e)
    ∧ ((∀ x ∈ l, (keyCallOf key x).appended = []) → ph = []) := by
  constructor
  · simp only [sort, hb]
  · intro happ
    have h1 := buildKeys_ph (keyCallOf key) l [] happ
    rw [hb] at h1
    exact h1

/-- Witness for C8 (amended) at the concrete failing key function. -/
theorem sort_key_failure_spec_witness :
    buildKeys (keyCallOf (some c8KeyFun)) [5, 6] []
      = ([99], .error (.valueError "boom"))
    ∧ sort [5, 6] (some c8KeyFun) natLt true = ([99], .error (.valueError "boom")) := by
  refine ⟨rfl, ?_⟩
  exact (sort_key_failure_spec [5, 6] (some c8KeyFun) natLt true [99]
    (.valueError "boom") rfl).1

end PyList
